import Mathlib

/-!
Shallow embedding of `native/src/seal/util/fft.h`: the `seal::util::Arithmetic`
interface and the two member functions `DWTHandler::transform_to_rev` and
`DWTHandler::transform_from_rev`.

Conventions of the embedding:
* the value buffer `values` is a total function `Nat → V`; the transforms only
  ever touch indices below `2 ^ log_n` (this is proved below, not assumed);
* the C++ shifts `size_t(1) << k` and `i << k` are written `2 ^ k` and
  `i * 2 ^ k`;
* the root table is a total function `Nat → R`; every read
  `roots[root_index]` of the table is recorded in a ghost list `reads`, so
  that the table-consumption properties can be stated;
* the optional `const ScalarType *scalar = nullptr` parameter is an
  `Option S`;
* `log_n` is a `Nat`.  All loop bounds and shift amounts that the C++
  computes with `int` arithmetic are non-negative whenever `1 ≤ log_n`, which
  is the regime in which this embedding is faithful.  In the `log_n = 0`
  corner the C++ final stages shift by a negative amount (undefined
  behaviour); those stage-parameter computations are modelled separately by
  the `Int`-valued definitions `to_rev_final_log_m`, `to_rev_final_m_shift`,
  `to_rev_final_gap_shift` and `from_rev_final_gap_shift` below.
-/

namespace SealFFT

/-- The `seal::util::Arithmetic` interface: the six elementary operations a
`DWTHandler` is specialized with (`fft.h`, lines 22-37). -/
structure Arithmetic (V R S : Type) where
  add : V → V → V
  sub : V → V → V
  mul_root : V → R → V
  mul_scalar : V → S → V
  mul_root_scalar : R → S → R
  guard : V → V

/-- The state threaded through one transform call: the value buffer, the
running root-table cursor `root_index`, and a ghost log `reads` of the table
indices read so far. -/
structure DWTState (V : Type) where
  vals : Nat → V
  root_index : Nat
  reads : List Nat

variable {V R S : Type}

/-- The innermost `for (j = offset; j < offset + gap; j++)` loop shared by all
four butterfly variants: `body a b` returns the pair written to
`(values[j], values[j + gap])` given `a = values[j]` and `b = values[j + gap]`.
The first `Nat` argument is the running `j`, the second the number of
remaining iterations. -/
def pairLoop (body : V → V → V × V) (gap : Nat) : Nat → Nat → (Nat → V) → Nat → V
  | _, 0, f => f
  | j, c + 1, f =>
      let w := body (f j) (f (j + gap))
      pairLoop body gap (j + 1) c
        (fun t => if t = j then w.1 else if t = j + gap then w.2 else f t)

/-- Butterfly body of `transform_to_rev` without a scalar (`fft.h`, 106-109):
`u = guard(values[j])`, `v = mul_root(values[j+gap], r)`, writes
`(add(u,v), sub(u,v))`. -/
def ct_body (A : Arithmetic V R S) (r : R) (a b : V) : V × V :=
  let u := A.guard a
  let v := A.mul_root b r
  (A.add u v, A.sub u v)

/-- Butterfly body of the scalar-fused final stage of `transform_to_rev`
(`fft.h`, 125-128): `u = mul_scalar(guard(values[j]), *scalar)`,
`v = mul_root(values[j+gap], scaled_r)`. -/
def ct_body_scalar (A : Arithmetic V R S) (scaled_r : R) (sc : S) (a b : V) : V × V :=
  let u := A.mul_scalar (A.guard a) sc
  let v := A.mul_root b scaled_r
  (A.add u v, A.sub u v)

/-- Butterfly body of `transform_from_rev` without a scalar (`fft.h`,
174-177): `u = values[j]`, `v = values[j+gap]`, writes
`(guard(add(u,v)), mul_root(sub(u,v), r))`. -/
def gs_body (A : Arithmetic V R S) (r : R) (a b : V) : V × V :=
  (A.guard (A.add a b), A.mul_root (A.sub a b) r)

/-- Butterfly body of the scalar-fused final stage of `transform_from_rev`
(`fft.h`, 193-196): `u = guard(values[j])`, `v = values[j+gap]`, writes
`(mul_scalar(guard(add(u,v)), *scalar), mul_root(sub(u,v), scaled_r))`. -/
def gs_body_scalar (A : Arithmetic V R S) (scaled_r : R) (sc : S) (a b : V) : V × V :=
  let u := A.guard a
  (A.mul_scalar (A.guard (A.add u b)) sc, A.mul_root (A.sub u b) scaled_r)

/-- The `for (i = 0; i < m; i++)` group loop shared by all stages: for each
group it reads `roots[root_index]` (logging the index, and incrementing the
cursor iff `incr`, mirroring `roots[root_index++]` versus `roots[root_index]`)
and runs `grp r offset` on the buffer, where `offset = i * step` models
`i << (log_n - log_m)`.  The first `Nat` argument is the running `i`, the
second the number of remaining iterations. -/
def group_loop (grp : R → Nat → (Nat → V) → Nat → V) (roots : Nat → R) (step : Nat)
    (incr : Bool) : Nat → Nat → DWTState V → DWTState V
  | _, 0, s => s
  | i, c + 1, s =>
      group_loop grp roots step incr (i + 1) c
        { vals := grp (roots s.root_index) (i * step) s.vals
          root_index := if incr then s.root_index + 1 else s.root_index
          reads := s.reads ++ [s.root_index] }

/-- One group of a `transform_to_rev` stage: the inner `j` loop over
`[offset, offset + gap)` with `gap = 1 << (log_n - log_m - 1)`. -/
def ct_grp (A : Arithmetic V R S) (log_n log_m : Nat) (r : R) (offset : Nat) :
    (Nat → V) → Nat → V :=
  pairLoop (ct_body A r) (2 ^ (log_n - log_m - 1)) offset (2 ^ (log_n - log_m - 1))

/-- One group of the scalar-fused final stage of `transform_to_rev`:
`scaled_r = mul_root_scalar(r, *scalar)` is combined once per group
(`fft.h`, line 121). -/
def ct_grp_scalar (A : Arithmetic V R S) (sc : S) (log_n log_m : Nat) (r : R)
    (offset : Nat) : (Nat → V) → Nat → V :=
  let scaled_r := A.mul_root_scalar r sc
  pairLoop (ct_body_scalar A scaled_r sc) (2 ^ (log_n - log_m - 1)) offset
    (2 ^ (log_n - log_m - 1))

/-- One group of a `transform_from_rev` stage. -/
def gs_grp (A : Arithmetic V R S) (log_n log_m : Nat) (r : R) (offset : Nat) :
    (Nat → V) → Nat → V :=
  pairLoop (gs_body A r) (2 ^ (log_n - log_m - 1)) offset (2 ^ (log_n - log_m - 1))

/-- One group of the scalar-fused final stage of `transform_from_rev`
(`fft.h`, line 189). -/
def gs_grp_scalar (A : Arithmetic V R S) (sc : S) (log_n log_m : Nat) (r : R)
    (offset : Nat) : (Nat → V) → Nat → V :=
  let scaled_r := A.mul_root_scalar r sc
  pairLoop (gs_body_scalar A scaled_r sc) (2 ^ (log_n - log_m - 1)) offset
    (2 ^ (log_n - log_m - 1))

/-- One full stage `log_m` of `transform_to_rev`: `m = 1 << log_m` groups of
step `1 << (log_n - log_m)`, cursor incrementing (`roots[root_index++]`). -/
def ct_stage (A : Arithmetic V R S) (roots : Nat → R) (log_n log_m : Nat) :
    DWTState V → DWTState V :=
  group_loop (ct_grp A log_n log_m) roots (2 ^ (log_n - log_m)) true 0 (2 ^ log_m)

/-- The scalar-fused final stage of `transform_to_rev` (`fft.h`, 113-131). -/
def ct_stage_scalar (A : Arithmetic V R S) (roots : Nat → R) (sc : S)
    (log_n log_m : Nat) : DWTState V → DWTState V :=
  group_loop (ct_grp_scalar A sc log_n log_m) roots (2 ^ (log_n - log_m)) true 0
    (2 ^ log_m)

/-- The main stage loop of `transform_to_rev`
(`for (log_m = 0; log_m < log_n - 1; log_m++)`): first argument the running
`log_m`, second the number of remaining stages. -/
def ct_stages (A : Arithmetic V R S) (roots : Nat → R) (log_n : Nat) :
    Nat → Nat → DWTState V → DWTState V
  | _, 0, s => s
  | log_m, c + 1, s =>
      ct_stages A roots log_n (log_m + 1) c (ct_stage A roots log_n log_m s)

/-- `DWTHandler::transform_to_rev` (`fft.h`, 93-150): the main loop runs
stages `log_m = 0, …, log_n - 2`, then the specialized final stage at
`log_m = log_n - 1` fuses the optional scalar.  The cursor starts at 1. -/
def transform_to_rev (A : Arithmetic V R S) (values : Nat → V) (log_n : Nat)
    (roots : Nat → R) (scalar : Option S) : DWTState V :=
  let s1 := ct_stages A roots log_n 0 (log_n - 1)
    { vals := values, root_index := 1, reads := [] }
  match scalar with
  | some sc => ct_stage_scalar A roots sc log_n (log_n - 1) s1
  | none => ct_stage A roots log_n (log_n - 1) s1

/-- One full stage `log_m` of `transform_from_rev` (`fft.h`, 164-180). -/
def gs_stage (A : Arithmetic V R S) (roots : Nat → R) (log_n log_m : Nat) :
    DWTState V → DWTState V :=
  group_loop (gs_grp A log_n log_m) roots (2 ^ (log_n - log_m)) true 0 (2 ^ log_m)

/-- The main stage loop of `transform_from_rev`
(`for (log_m = log_n - 1; log_m > 0; log_m--)`): the argument is the current
`log_m`, counting down to (and excluding) 0. -/
def gs_stages (A : Arithmetic V R S) (roots : Nat → R) (log_n : Nat) :
    Nat → DWTState V → DWTState V
  | 0, s => s
  | log_m + 1, s =>
      gs_stages A roots log_n log_m (gs_stage A roots log_n (log_m + 1) s)

/-- The final stage of `transform_from_rev` without a scalar (`fft.h`,
200-217): `log_m = 0`, `m = 1`, `gap = 1 << (log_n - 1)`, and the root is read
as `roots[root_index]` without incrementing the cursor. -/
def gs_final (A : Arithmetic V R S) (roots : Nat → R) (log_n : Nat) :
    DWTState V → DWTState V :=
  group_loop (gs_grp A log_n 0) roots (2 ^ log_n) false 0 1

/-- The scalar-fused final stage of `transform_from_rev` (`fft.h`, 181-199). -/
def gs_final_scalar (A : Arithmetic V R S) (roots : Nat → R) (sc : S)
    (log_n : Nat) : DWTState V → DWTState V :=
  group_loop (gs_grp_scalar A sc log_n 0) roots (2 ^ log_n) false 0 1

/-- `DWTHandler::transform_from_rev` (`fft.h`, 161-218): stages
`log_m = log_n - 1, …, 1`, then the specialized final stage at `log_m = 0`. -/
def transform_from_rev (A : Arithmetic V R S) (values : Nat → V) (log_n : Nat)
    (roots : Nat → R) (scalar : Option S) : DWTState V :=
  let s1 := gs_stages A roots log_n (log_n - 1)
    { vals := values, root_index := 1, reads := [] }
  match scalar with
  | some sc => gs_final_scalar A roots sc log_n s1
  | none => gs_final A roots log_n s1

/-- The forward algorithm exactly as §4.2 of the spec states it: a single
uniform loop of stages `log_m = 0, …, log_n - 1` (all with the unfused
butterfly body), with the sequential root cursor starting at index 1. -/
def spec_to_rev (A : Arithmetic V R S) (values : Nat → V) (log_n : Nat)
    (roots : Nat → R) : Nat → V :=
  (ct_stages A roots log_n 0 log_n
    { vals := values, root_index := 1, reads := [] }).vals

/-- The inverse algorithm exactly as §4.3 of the spec states it: stages
`log_m = log_n - 1, …, 1` with the flipped butterfly and the sequential root
cursor, then one final stage at `log_m = 0` with `gap = n / 2` applying the
same butterfly once across the two halves of the buffer, with the root read
at the cursor. -/
def spec_from_rev (A : Arithmetic V R S) (values : Nat → V) (log_n : Nat)
    (roots : Nat → R) : Nat → V :=
  let s1 := gs_stages A roots log_n (log_n - 1)
    { vals := values, root_index := 1, reads := [] }
  pairLoop (gs_body A (roots s1.root_index)) (2 ^ log_n / 2) 0 (2 ^ log_n / 2) s1.vals

/-- Cursor-free group loop: group `i` uses root `rootAt i` directly instead
of consuming the sequential cursor. -/
def group_fold (grp : R → Nat → (Nat → V) → Nat → V) (rootAt : Nat → R)
    (step : Nat) : Nat → Nat → (Nat → V) → Nat → V
  | _, 0, f => f
  | i, c + 1, f => group_fold grp rootAt step (i + 1) c (grp (rootAt i) (i * step) f)

/-- Stage `log_m` of `transform_to_rev` with its roots addressed directly:
group `i` uses `roots[2^log_m + i]` (the "always m + i" comment in the
source). -/
def ct_stage_idx (A : Arithmetic V R S) (roots : Nat → R) (log_n log_m : Nat)
    (f : Nat → V) : Nat → V :=
  group_fold (ct_grp A log_n log_m) (fun i => roots (2 ^ log_m + i))
    (2 ^ (log_n - log_m)) 0 (2 ^ log_m) f

/-- The scalar-fused final stage of `transform_to_rev` with its roots
addressed directly. -/
def ct_stage_scalar_idx (A : Arithmetic V R S) (roots : Nat → R) (sc : S)
    (log_n log_m : Nat) (f : Nat → V) : Nat → V :=
  group_fold (ct_grp_scalar A sc log_n log_m) (fun i => roots (2 ^ log_m + i))
    (2 ^ (log_n - log_m)) 0 (2 ^ log_m) f

/-- Stage `log_m` of `transform_from_rev` with its roots addressed directly:
group `i` of stage `log_m` uses `roots[2^log_n - 2^(log_m+1) + 1 + i]`. -/
def gs_stage_idx (A : Arithmetic V R S) (roots : Nat → R) (log_n log_m : Nat)
    (f : Nat → V) : Nat → V :=
  group_fold (gs_grp A log_n log_m)
    (fun i => roots (2 ^ log_n - 2 ^ (log_m + 1) + 1 + i))
    (2 ^ (log_n - log_m)) 0 (2 ^ log_m) f

/-- The final stage of `transform_from_rev` without a scalar, with its root
addressed directly as `roots[n - 1]` (the "This is n - 1" comment). -/
def gs_final_idx (A : Arithmetic V R S) (roots : Nat → R) (log_n : Nat)
    (f : Nat → V) : Nat → V :=
  gs_grp A log_n 0 (roots (2 ^ log_n - 1)) 0 f

/-- The scalar-fused final stage of `transform_from_rev`, with its root
addressed directly as `roots[n - 1]`. -/
def gs_final_scalar_idx (A : Arithmetic V R S) (roots : Nat → R) (sc : S)
    (log_n : Nat) (f : Nat → V) : Nat → V :=
  gs_grp_scalar A sc log_n 0 (roots (2 ^ log_n - 1)) 0 f

/-- Cursor-free main stage loop of `transform_to_rev`. -/
def ct_stages_idx (A : Arithmetic V R S) (roots : Nat → R) (log_n : Nat) :
    Nat → Nat → (Nat → V) → Nat → V
  | _, 0, f => f
  | log_m, c + 1, f =>
      ct_stages_idx A roots log_n (log_m + 1) c (ct_stage_idx A roots log_n log_m f)

/-- Cursor-free `transform_to_rev`: every stage addresses its roots directly
as `roots[2^log_m + i]`. -/
def to_rev_idx (A : Arithmetic V R S) (values : Nat → V) (log_n : Nat)
    (roots : Nat → R) (scalar : Option S) : Nat → V :=
  let f1 := ct_stages_idx A roots log_n 0 (log_n - 1) values
  match scalar with
  | some sc => ct_stage_scalar_idx A roots sc log_n (log_n - 1) f1
  | none => ct_stage_idx A roots log_n (log_n - 1) f1

/-- Cursor-free block of `transform_from_rev` stages
`log_m + c - 1, …, log_m`, applied highest stage first (the order of the
source's stage loop). -/
def gs_block (A : Arithmetic V R S) (roots : Nat → R) (log_n : Nat) :
    Nat → Nat → (Nat → V) → Nat → V
  | _, 0, f => f
  | log_m, c + 1, f =>
      gs_stage_idx A roots log_n log_m (gs_block A roots log_n (log_m + 1) c f)

/-- Cursor-free `transform_from_rev`. -/
def from_rev_idx (A : Arithmetic V R S) (values : Nat → V) (log_n : Nat)
    (roots : Nat → R) (scalar : Option S) : Nat → V :=
  let f1 := gs_block A roots log_n 1 (log_n - 1) values
  match scalar with
  | some sc => gs_final_scalar_idx A roots sc log_n f1
  | none => gs_final_idx A roots log_n f1

/-- Modelled from the spec: the concrete `Arithmetic` variants (§4.1) are not
part of the sources under verification (only `fft.h` is).  Per §4.1 the
integer-modular variant's `add`/`sub`/`mul_root`/`mul_scalar` are the ring
operations of `ZMod q`, `mul_root_scalar` combines a root and the scalar by
ring multiplication, and `guard` (a partial modular reduction on the machine
representation) is the identity on the ring values themselves.  The
definition is stated over any commutative ring so that it also covers the
idealized (exact) complex variant. -/
def ring_arith (α : Type) [CommRing α] : Arithmetic α α α where
  add := fun a b => a + b
  sub := fun a b => a - b
  mul_root := fun a r => a * r
  mul_scalar := fun a s => a * s
  mul_root_scalar := fun r s => r * s
  guard := fun a => a

/-- The value of `int log_m = log_n - 1` in the specialized final stage of
`transform_to_rev` (`fft.h`, lines 115 and 134), in the `int` arithmetic of
the source. -/
def to_rev_final_log_m (log_n : Int) : Int := log_n - 1

/-- The shift amount used to compute `m = size_t(1) << log_m` in the final
stage of `transform_to_rev` (`fft.h`, lines 116 and 135). -/
def to_rev_final_m_shift (log_n : Int) : Int := to_rev_final_log_m log_n

/-- The shift amount `log_n - log_m - 1` used to compute
`gap = size_t(1) << (log_n - log_m - 1)` in the final stage of
`transform_to_rev` (`fft.h`, lines 117 and 136). -/
def to_rev_final_gap_shift (log_n : Int) : Int :=
  log_n - to_rev_final_log_m log_n - 1

/-- The shift amount `log_n - log_m - 1` with `log_m = 0` used to compute
`gap` in the final stage of `transform_from_rev` (`fft.h`, lines 185 and
204). -/
def from_rev_final_gap_shift (log_n : Int) : Int := log_n - 0 - 1

/-- Pointwise description of the inner butterfly loop: starting at `j` with
`c ≤ gap` iterations, index `t` receives the first butterfly output if
`t ∈ [j, j+c)`, the second if `t ∈ [j+gap, j+gap+c)`, and is untouched
otherwise. -/
theorem pairLoop_apply (body : V → V → V × V) (gap : Nat) :
    ∀ (c j : Nat) (f : Nat → V) (t : Nat), c ≤ gap →
      pairLoop body gap j c f t =
        if j ≤ t ∧ t < j + c then (body (f t) (f (t + gap))).1
        else if j + gap ≤ t ∧ t < j + gap + c then (body (f (t - gap)) (f t)).2
        else f t := by
  intro c
  induction c with
  | zero =>
      intro j f t _
      simp only [pairLoop]
      rw [if_neg (by omega), if_neg (by omega)]
  | succ c ih =>
      intro j f t hc
      simp only [pairLoop]
      rw [ih (j + 1) _ t (by omega)]
      by_cases h1 : j + 1 ≤ t ∧ t < j + 1 + c
      · rw [if_pos h1, if_pos (show j ≤ t ∧ t < j + (c + 1) by omega)]
        simp only [if_neg (show ¬ (t = j) by omega),
          if_neg (show ¬ (t = j + gap) by omega),
          if_neg (show ¬ (t + gap = j) by omega),
          if_neg (show ¬ (t + gap = j + gap) by omega)]
      · rw [if_neg h1]
        by_cases h2 : j + 1 + gap ≤ t ∧ t < j + 1 + gap + c
        · rw [if_pos h2, if_neg (show ¬ (j ≤ t ∧ t < j + (c + 1)) by omega),
            if_pos (show j + gap ≤ t ∧ t < j + gap + (c + 1) by omega)]
          simp only [if_neg (show ¬ (t - gap = j) by omega),
            if_neg (show ¬ (t - gap = j + gap) by omega),
            if_neg (show ¬ (t = j) by omega),
            if_neg (show ¬ (t = j + gap) by omega)]
        · rw [if_neg h2]
          by_cases h3 : t = j
          · subst h3
            rw [if_pos rfl, if_pos (show t ≤ t ∧ t < t + (c + 1) by omega)]
          · by_cases h4 : t = j + gap
            · subst h4
              rw [if_neg (show ¬ (j + gap = j) by omega), if_pos rfl,
                if_neg (show ¬ (j ≤ j + gap ∧ j + gap < j + (c + 1)) by omega),
                if_pos (show j + gap ≤ j + gap ∧ j + gap < j + gap + (c + 1) by omega)]
              rw [show j + gap - gap = j by omega]
            · rw [if_neg h3, if_neg h4,
                if_neg (show ¬ (j ≤ t ∧ t < j + (c + 1)) by omega),
                if_neg (show ¬ (j + gap ≤ t ∧ t < j + gap + (c + 1)) by omega)]

/-- The group loop advances the cursor by the iteration count when it
increments, and not at all otherwise. -/
theorem group_loop_root_index (grp : R → Nat → (Nat → V) → Nat → V)
    (roots : Nat → R) (step : Nat) (incr : Bool) :
    ∀ (c i : Nat) (s : DWTState V),
      (group_loop grp roots step incr i c s).root_index =
        if incr then s.root_index + c else s.root_index := by
  intro c
  induction c with
  | zero => intro i s; cases incr <;> simp [group_loop]
  | succ c ih =>
      intro i s
      simp only [group_loop]
      rw [ih]
      cases incr
      · simp
      · simp
        omega

/-- The group loop logs the cursor positions it reads: `c` consecutive
indices when it increments, the same index `c` times otherwise. -/
theorem group_loop_reads (grp : R → Nat → (Nat → V) → Nat → V)
    (roots : Nat → R) (step : Nat) (incr : Bool) :
    ∀ (c i : Nat) (s : DWTState V),
      (group_loop grp roots step incr i c s).reads =
        s.reads ++ (if incr then List.range' s.root_index c
                    else List.replicate c s.root_index) := by
  intro c
  induction c with
  | zero => intro i s; cases incr <;> simp [group_loop]
  | succ c ih =>
      intro i s
      simp only [group_loop]
      rw [ih]
      cases incr <;> simp [List.range'_succ, List.replicate_succ]

/-- Specialization of `group_loop_reads` to an incrementing cursor. -/
theorem group_loop_reads_incr (grp : R → Nat → (Nat → V) → Nat → V)
    (roots : Nat → R) (step : Nat) (c i : Nat) (s : DWTState V) :
    (group_loop grp roots step true i c s).reads
      = s.reads ++ List.range' s.root_index c := by
  rw [group_loop_reads]; simp

/-- Specialization of `group_loop_reads` to a non-incrementing cursor. -/
theorem group_loop_reads_once (grp : R → Nat → (Nat → V) → Nat → V)
    (roots : Nat → R) (step : Nat) (c i : Nat) (s : DWTState V) :
    (group_loop grp roots step false i c s).reads
      = s.reads ++ List.replicate c s.root_index := by
  rw [group_loop_reads]; simp

/-- With an incrementing cursor starting at `k + i`, the group loop computes
the same buffer as the cursor-free `group_fold` addressing roots at
`k + i'`. -/
theorem group_loop_vals (grp : R → Nat → (Nat → V) → Nat → V)
    (roots : Nat → R) (step : Nat) :
    ∀ (c i k : Nat) (s : DWTState V), s.root_index = k + i →
      (group_loop grp roots step true i c s).vals =
        group_fold grp (fun i2 => roots (k + i2)) step i c s.vals := by
  intro c
  induction c with
  | zero => intro i k s _; simp [group_loop, group_fold]
  | succ c ih =>
      intro i k s h
      simp only [group_loop, group_fold]
      rw [ih (i + 1) k _ (by simp [h]; omega)]
      simp [h]

/-- Unfolding of the single-group, non-incrementing loop used by the final
stage of `transform_from_rev`. -/
theorem group_loop_final (grp : R → Nat → (Nat → V) → Nat → V)
    (roots : Nat → R) (step : Nat) (s : DWTState V) :
    group_loop grp roots step false 0 1 s =
      { vals := grp (roots s.root_index) (0 * step) s.vals
        root_index := s.root_index
        reads := s.reads ++ [s.root_index] } := by
  simp [group_loop]

/-- A stage built from butterfly blocks leaves every index outside its window
`[i·2·gap, (i+c)·2·gap)` untouched. -/
theorem group_fold_pair_frame (mk : R → V → V → V × V) (rootAt : Nat → R)
    (gap : Nat) :
    ∀ (c i : Nat) (f : Nat → V) (t : Nat),
      (t < i * (2 * gap) ∨ (i + c) * (2 * gap) ≤ t) →
      group_fold (fun r offset => pairLoop (mk r) gap offset gap) rootAt
        (2 * gap) i c f t = f t := by
  intro c
  induction c with
  | zero => intro i f t _; simp [group_fold]
  | succ c ih =>
      intro i f t ht
      have e1 : (i + 1) * (2 * gap) = i * (2 * gap) + 2 * gap := by ring
      have e2 : (i + (c + 1)) * (2 * gap) = (i + 1 + c) * (2 * gap) := by ring
      have e3 : (i + 1 + c) * (2 * gap) = (i + 1) * (2 * gap) + c * (2 * gap) := by
        ring
      simp only [group_fold]
      rw [ih (i + 1) _ t (by omega)]
      rw [pairLoop_apply _ _ _ _ _ _ (le_refl gap)]
      rw [if_neg (by omega), if_neg (by omega)]

/-- Pointwise description of a stage built from butterfly blocks, at the
index `q * (2 * gap) + b` of group `q`: positions with `b < gap` receive the
first output of the butterfly with root `rootAt q`, the others the second. -/
theorem group_fold_pair_apply (mk : R → V → V → V × V) (rootAt : Nat → R)
    (gap : Nat) :
    ∀ (c i : Nat) (f : Nat → V) (q b : Nat),
      i ≤ q → q < i + c → b < 2 * gap →
      group_fold (fun r offset => pairLoop (mk r) gap offset gap) rootAt
          (2 * gap) i c f (q * (2 * gap) + b) =
        if b < gap then
          (mk (rootAt q) (f (q * (2 * gap) + b)) (f (q * (2 * gap) + b + gap))).1
        else
          (mk (rootAt q) (f (q * (2 * gap) + b - gap)) (f (q * (2 * gap) + b))).2 := by
  intro c
  induction c with
  | zero => intro i f q b h1 h2 _; omega
  | succ c ih =>
      intro i f q b hiq hqc hb
      have e1 : (i + 1) * (2 * gap) = i * (2 * gap) + 2 * gap := by ring
      simp only [group_fold]
      by_cases hq : q = i
      · subst hq
        rw [group_fold_pair_frame _ _ _ c (q + 1) _ _
          (by left; rw [show (q + 1) * (2 * gap) = q * (2 * gap) + 2 * gap by ring];
              omega)]
        rw [pairLoop_apply _ _ _ _ _ _ (le_refl gap)]
        by_cases hbg : b < gap
        · rw [if_pos (by constructor <;> omega), if_pos hbg]
        · rw [if_neg (by omega), if_pos (by constructor <;> omega), if_neg hbg]
      · have hiq1 : i + 1 ≤ q := by omega
        have hmul : (i + 1) * (2 * gap) ≤ q * (2 * gap) :=
          Nat.mul_le_mul_right _ hiq1
        rw [ih (i + 1) _ q b hiq1 (by omega) hb]
        by_cases hbg : b < gap
        · rw [if_pos hbg, if_pos hbg]
          rw [pairLoop_apply _ _ _ _ _ _ (le_refl gap),
            pairLoop_apply _ _ _ _ _ _ (le_refl gap)]
          rw [if_neg (by omega), if_neg (by omega), if_neg (by omega),
            if_neg (by omega)]
        · rw [if_neg hbg, if_neg hbg]
          rw [pairLoop_apply _ _ _ _ _ _ (le_refl gap),
            pairLoop_apply _ _ _ _ _ _ (le_refl gap)]
          rw [if_neg (by omega), if_neg (by omega), if_neg (by omega),
            if_neg (by omega)]

/-- Gluing of two adjacent `List.range'` segments. -/
theorem range'_glue (a m n : Nat) :
    List.range' a m ++ List.range' (a + m) n = List.range' a (m + n) := by
  have h := List.range'_append a m n 1
  rw [Nat.one_mul] at h
  rw [h, Nat.add_comm n m]

theorem ct_grp_def (A : Arithmetic V R S) (log_n log_m : Nat) :
    ct_grp A log_n log_m = fun r offset =>
      pairLoop (ct_body A r) (2 ^ (log_n - log_m - 1)) offset
        (2 ^ (log_n - log_m - 1)) := rfl

theorem ct_grp_scalar_def (A : Arithmetic V R S) (sc : S) (log_n log_m : Nat) :
    ct_grp_scalar A sc log_n log_m = fun r offset =>
      pairLoop (ct_body_scalar A (A.mul_root_scalar r sc) sc)
        (2 ^ (log_n - log_m - 1)) offset (2 ^ (log_n - log_m - 1)) := rfl

theorem gs_grp_def (A : Arithmetic V R S) (log_n log_m : Nat) :
    gs_grp A log_n log_m = fun r offset =>
      pairLoop (gs_body A r) (2 ^ (log_n - log_m - 1)) offset
        (2 ^ (log_n - log_m - 1)) := rfl

theorem gs_grp_scalar_def (A : Arithmetic V R S) (sc : S) (log_n log_m : Nat) :
    gs_grp_scalar A sc log_n log_m = fun r offset =>
      pairLoop (gs_body_scalar A (A.mul_root_scalar r sc) sc)
        (2 ^ (log_n - log_m - 1)) offset (2 ^ (log_n - log_m - 1)) := rfl

/-- The geometry of one stage: `gap = 2^(log_n - log_m - 1)` and
`step = 2^(log_n - log_m)` satisfy `step = 2 * gap`, and the stage's groups
tile `[0, 2^log_n)`. -/
theorem stage_step_eq (log_n log_m : Nat) (h : log_m < log_n) :
    2 ^ (log_n - log_m) = 2 * 2 ^ (log_n - log_m - 1) := by
  have h2 : log_n - log_m - 1 + 1 = log_n - log_m := by omega
  calc 2 ^ (log_n - log_m) = 2 ^ (log_n - log_m - 1 + 1) := by rw [h2]
    _ = 2 * 2 ^ (log_n - log_m - 1) := by rw [pow_succ]; ring

theorem stage_tile (log_n log_m : Nat) (h : log_m ≤ log_n) :
    2 ^ log_m * 2 ^ (log_n - log_m) = 2 ^ log_n := by
  rw [← pow_add]
  congr 1
  omega

/-- Pointwise description of one stage of butterflies over the whole buffer,
for any butterfly body `mk`: group `q`, position `b` within the group. -/
theorem stage_fold_apply (mk : R → V → V → V × V) (rootAt : Nat → R)
    (log_n log_m : Nat) (hlm : log_m < log_n) (f : Nat → V) (q b : Nat)
    (hq : q < 2 ^ log_m) (hb : b < 2 ^ (log_n - log_m)) :
    group_fold (fun r offset =>
        pairLoop (mk r) (2 ^ (log_n - log_m - 1)) offset
          (2 ^ (log_n - log_m - 1))) rootAt
      (2 ^ (log_n - log_m)) 0 (2 ^ log_m) f (q * 2 ^ (log_n - log_m) + b) =
    if b < 2 ^ (log_n - log_m - 1) then
      (mk (rootAt q) (f (q * 2 ^ (log_n - log_m) + b))
        (f (q * 2 ^ (log_n - log_m) + b + 2 ^ (log_n - log_m - 1)))).1
    else
      (mk (rootAt q) (f (q * 2 ^ (log_n - log_m) + b - 2 ^ (log_n - log_m - 1)))
        (f (q * 2 ^ (log_n - log_m) + b))).2 := by
  have hs := stage_step_eq log_n log_m hlm
  rw [hs] at hb ⊢
  exact group_fold_pair_apply mk rootAt (2 ^ (log_n - log_m - 1)) (2 ^ log_m) 0 f
    q b (Nat.zero_le q) (by omega) hb

/-- One stage of butterflies leaves every index at or above `2^log_n`
untouched. -/
theorem stage_fold_frame (mk : R → V → V → V × V) (rootAt : Nat → R)
    (log_n log_m : Nat) (hlm : log_m < log_n) (f : Nat → V) (t : Nat)
    (ht : 2 ^ log_n ≤ t) :
    group_fold (fun r offset =>
        pairLoop (mk r) (2 ^ (log_n - log_m - 1)) offset
          (2 ^ (log_n - log_m - 1))) rootAt
      (2 ^ (log_n - log_m)) 0 (2 ^ log_m) f t = f t := by
  have hs := stage_step_eq log_n log_m hlm
  have htile := stage_tile log_n log_m (le_of_lt hlm)
  rw [hs]
  exact group_fold_pair_frame mk rootAt (2 ^ (log_n - log_m - 1)) (2 ^ log_m) 0 f t
    (by right; rw [Nat.zero_add, ← hs]; omega)

/-- Cursor and read-log bookkeeping of the forward stage loop: running
stages `log_m, …, log_m + c - 1` consumes the `2^(log_m+c) - 2^log_m`
consecutive table indices starting at the incoming cursor. -/
theorem ct_stages_bookkeeping (A : Arithmetic V R S) (roots : Nat → R)
    (log_n : Nat) :
    ∀ (c log_m : Nat) (s : DWTState V),
      (ct_stages A roots log_n log_m c s).root_index
          = s.root_index + (2 ^ (log_m + c) - 2 ^ log_m) ∧
        (ct_stages A roots log_n log_m c s).reads
          = s.reads ++ List.range' s.root_index (2 ^ (log_m + c) - 2 ^ log_m) := by
  intro c
  induction c with
  | zero => intro lm s; simp [ct_stages]
  | succ c ih =>
      intro lm s
      simp only [ct_stages]
      obtain ⟨ih1, ih2⟩ := ih (lm + 1) (ct_stage A roots log_n lm s)
      have h1 : (ct_stage A roots log_n lm s).root_index
          = s.root_index + 2 ^ lm := by
        simp [ct_stage, group_loop_root_index]
      have h2 : (ct_stage A roots log_n lm s).reads
          = s.reads ++ List.range' s.root_index (2 ^ lm) := by
        simp [ct_stage, group_loop_reads]
      have e1 : 2 ^ (lm + 1) = 2 * 2 ^ lm := by rw [pow_succ]; ring
      have e2 : 2 ^ (lm + (c + 1)) = 2 * 2 ^ (lm + c) := by
        rw [show lm + (c + 1) = lm + c + 1 by omega, pow_succ]; ring
      have e3 : 2 ^ lm ≤ 2 ^ (lm + c) := Nat.pow_le_pow_right (by omega) (by omega)
      have e4 : 2 ^ (lm + 1 + c) = 2 ^ (lm + (c + 1)) := by
        rw [show lm + 1 + c = lm + (c + 1) by omega]
      constructor
      · rw [ih1, h1, e4]; omega
      · rw [ih2, h2, h1, List.append_assoc, range'_glue]
        rw [show 2 ^ lm + (2 ^ (lm + 1 + c) - 2 ^ (lm + 1))
              = 2 ^ (lm + (c + 1)) - 2 ^ lm by rw [e4]; omega]

/-- Cursor and read-log bookkeeping of the inverse stage loop: running
stages `c, …, 1` consumes the `2^(c+1) - 2` consecutive table indices
starting at the incoming cursor. -/
theorem gs_stages_bookkeeping (A : Arithmetic V R S) (roots : Nat → R)
    (log_n : Nat) :
    ∀ (c : Nat) (s : DWTState V),
      (gs_stages A roots log_n c s).root_index
          = s.root_index + (2 ^ (c + 1) - 2) ∧
        (gs_stages A roots log_n c s).reads
          = s.reads ++ List.range' s.root_index (2 ^ (c + 1) - 2) := by
  intro c
  induction c with
  | zero => intro s; simp [gs_stages]
  | succ c ih =>
      intro s
      simp only [gs_stages]
      obtain ⟨ih1, ih2⟩ := ih (gs_stage A roots log_n (c + 1) s)
      have h1 : (gs_stage A roots log_n (c + 1) s).root_index
          = s.root_index + 2 ^ (c + 1) := by
        simp [gs_stage, group_loop_root_index]
      have h2 : (gs_stage A roots log_n (c + 1) s).reads
          = s.reads ++ List.range' s.root_index (2 ^ (c + 1)) := by
        simp [gs_stage, group_loop_reads]
      have e0 : 1 ≤ 2 ^ c := Nat.one_le_two_pow
      have e1 : 2 ^ (c + 1 + 1) = 2 * 2 ^ (c + 1) := by rw [pow_succ]; ring
      have e2 : 2 ^ (c + 1) = 2 * 2 ^ c := by rw [pow_succ]; ring
      constructor
      · rw [ih1, h1]; omega
      · rw [ih2, h2, h1, List.append_assoc, range'_glue]
        rw [show 2 ^ (c + 1) + (2 ^ (c + 1) - 2) = 2 ^ (c + 1 + 1) - 2 by omega]

/-- A forward stage with incoming cursor `2^log_m` computes the cursor-free
stage: its roots are exactly `roots[2^log_m + i]`. -/
theorem ct_stage_vals (A : Arithmetic V R S) (roots : Nat → R)
    (log_n log_m : Nat) (s : DWTState V) (h : s.root_index = 2 ^ log_m) :
    (ct_stage A roots log_n log_m s).vals = ct_stage_idx A roots log_n log_m s.vals := by
  simp only [ct_stage, ct_stage_idx]
  rw [group_loop_vals _ roots _ (2 ^ log_m) 0 (2 ^ log_m) s (by omega)]

/-- Scalar-fused variant of `ct_stage_vals`. -/
theorem ct_stage_scalar_vals (A : Arithmetic V R S) (roots : Nat → R) (sc : S)
    (log_n log_m : Nat) (s : DWTState V) (h : s.root_index = 2 ^ log_m) :
    (ct_stage_scalar A roots sc log_n log_m s).vals
      = ct_stage_scalar_idx A roots sc log_n log_m s.vals := by
  simp only [ct_stage_scalar, ct_stage_scalar_idx]
  rw [group_loop_vals _ roots _ (2 ^ log_m) 0 (2 ^ log_m) s (by omega)]

/-- An inverse stage with incoming cursor `2^log_n - 2^(log_m+1) + 1`
computes the cursor-free stage: its roots are exactly
`roots[2^log_n - 2^(log_m+1) + 1 + i]`. -/
theorem gs_stage_vals (A : Arithmetic V R S) (roots : Nat → R)
    (log_n log_m : Nat) (s : DWTState V)
    (h : s.root_index = 2 ^ log_n - 2 ^ (log_m + 1) + 1) :
    (gs_stage A roots log_n log_m s).vals = gs_stage_idx A roots log_n log_m s.vals := by
  simp only [gs_stage, gs_stage_idx]
  rw [group_loop_vals _ roots _ (2 ^ log_m) 0 (2 ^ log_n - 2 ^ (log_m + 1) + 1) s
    (by omega)]

/-- Peeling the last (lowest) stage off a cursor-free forward stage block. -/
theorem ct_stages_idx_snoc (A : Arithmetic V R S) (roots : Nat → R)
    (log_n : Nat) :
    ∀ (c log_m : Nat) (f : Nat → V),
      ct_stages_idx A roots log_n log_m (c + 1) f
        = ct_stage_idx A roots log_n (log_m + c) (ct_stages_idx A roots log_n log_m c f) := by
  intro c
  induction c with
  | zero => intro lm f; simp [ct_stages_idx]
  | succ c ih =>
      intro lm f
      have e : lm + 1 + c = lm + (c + 1) := by omega
      calc ct_stages_idx A roots log_n lm (c + 1 + 1) f
          = ct_stages_idx A roots log_n (lm + 1) (c + 1)
              (ct_stage_idx A roots log_n lm f) := rfl
        _ = ct_stage_idx A roots log_n (lm + 1 + c)
              (ct_stages_idx A roots log_n (lm + 1) c
                (ct_stage_idx A roots log_n lm f)) := ih (lm + 1) _
        _ = ct_stage_idx A roots log_n (lm + (c + 1))
              (ct_stages_idx A roots log_n lm (c + 1) f) := by rw [e]; rfl

/-- Peeling the first-applied (highest) stage off a cursor-free inverse
stage block. -/
theorem gs_block_snoc (A : Arithmetic V R S) (roots : Nat → R) (log_n : Nat) :
    ∀ (c log_m : Nat) (f : Nat → V),
      gs_block A roots log_n log_m (c + 1) f
        = gs_block A roots log_n log_m c (gs_stage_idx A roots log_n (log_m + c) f) := by
  intro c
  induction c with
  | zero => intro lm f; simp [gs_block]
  | succ c ih =>
      intro lm f
      have e : lm + 1 + c = lm + (c + 1) := by omega
      calc gs_block A roots log_n lm (c + 1 + 1) f
          = gs_stage_idx A roots log_n lm (gs_block A roots log_n (lm + 1) (c + 1) f) := rfl
        _ = gs_stage_idx A roots log_n lm
              (gs_block A roots log_n (lm + 1) c
                (gs_stage_idx A roots log_n (lm + 1 + c) f)) := by rw [ih (lm + 1) f]
        _ = gs_block A roots log_n lm (c + 1)
              (gs_stage_idx A roots log_n (lm + (c + 1)) f) := by rw [e]; rfl

/-- The forward stage loop started at stage `log_m` with cursor `2^log_m`
computes the cursor-free stage block. -/
theorem ct_stages_vals (A : Arithmetic V R S) (roots : Nat → R) (log_n : Nat) :
    ∀ (c log_m : Nat) (s : DWTState V), s.root_index = 2 ^ log_m →
      (ct_stages A roots log_n log_m c s).vals
        = ct_stages_idx A roots log_n log_m c s.vals := by
  intro c
  induction c with
  | zero => intro lm s _; simp [ct_stages, ct_stages_idx]
  | succ c ih =>
      intro lm s h
      simp only [ct_stages, ct_stages_idx]
      have h1 : (ct_stage A roots log_n lm s).root_index = 2 ^ (lm + 1) := by
        simp [ct_stage, group_loop_root_index, h, pow_succ]; ring
      rw [ih (lm + 1) _ h1, ct_stage_vals A roots log_n lm s h]

/-- The inverse stage loop started at stage `c` with cursor
`2^log_n - 2^(c+1) + 1` computes the cursor-free stage block of stages
`c, …, 1`. -/
theorem gs_stages_vals (A : Arithmetic V R S) (roots : Nat → R) (log_n : Nat) :
    ∀ (c : Nat) (s : DWTState V), c + 1 ≤ log_n →
      s.root_index = 2 ^ log_n - 2 ^ (c + 1) + 1 →
      (gs_stages A roots log_n c s).vals = gs_block A roots log_n 1 c s.vals := by
  intro c
  induction c with
  | zero => intro s _ _; simp [gs_stages, gs_block]
  | succ c ih =>
      intro s hc h
      simp only [gs_stages]
      have e1 : 2 ^ (c + 2) = 2 * 2 ^ (c + 1) := by rw [pow_succ]; ring
      have e2 : 2 ^ (c + 2) ≤ 2 ^ log_n := Nat.pow_le_pow_right (by omega) (by omega)
      have h1 : (gs_stage A roots log_n (c + 1) s).root_index
          = 2 ^ log_n - 2 ^ (c + 1) + 1 := by
        simp [gs_stage, group_loop_root_index, h]; omega
      rw [ih _ (by omega) h1, gs_stage_vals A roots log_n (c + 1) s h,
        gs_block_snoc]
      rw [show 1 + c = c + 1 by omega]

/-- Cursor elimination for `transform_to_rev`: the sequential cursor reads
exactly `roots[2^log_m + i]` at group `i` of stage `log_m`, for every stage
including the specialized last one and for either scalar mode. -/
theorem to_rev_vals_idx (A : Arithmetic V R S) (values : Nat → V) (log_n : Nat)
    (roots : Nat → R) (scalar : Option S) :
    (transform_to_rev A values log_n roots scalar).vals
      = to_rev_idx A values log_n roots scalar := by
  simp only [transform_to_rev, to_rev_idx]
  have h0 : (({ vals := values, root_index := 1, reads := [] } : DWTState V)).root_index
      = 2 ^ (0 : Nat) := by simp
  have h1 := ct_stages_vals A roots log_n (log_n - 1) 0
    { vals := values, root_index := 1, reads := [] } h0
  have h2 : (ct_stages A roots log_n 0 (log_n - 1)
      { vals := values, root_index := 1, reads := [] }).root_index
      = 2 ^ (log_n - 1) := by
    have hb := (ct_stages_bookkeeping A roots log_n (log_n - 1) 0
      { vals := values, root_index := 1, reads := [] }).1
    have hp : 1 ≤ 2 ^ (log_n - 1) := Nat.one_le_two_pow
    rw [hb]
    show 1 + (2 ^ (0 + (log_n - 1)) - 2 ^ 0) = 2 ^ (log_n - 1)
    simp only [Nat.zero_add, pow_zero]
    omega
  cases scalar with
  | none => rw [ct_stage_vals A roots log_n (log_n - 1) _ h2, h1]
  | some sc => rw [ct_stage_scalar_vals A roots sc log_n (log_n - 1) _ h2, h1]

/-- Cursor elimination for `transform_from_rev`: after the main loop the
cursor stands at `n - 1`, and stage `log_m` reads
`roots[2^log_n - 2^(log_m+1) + 1 + i]` at group `i`. -/
theorem from_rev_vals_idx (A : Arithmetic V R S) (values : Nat → V)
    (log_n : Nat) (roots : Nat → R) (scalar : Option S) (hL : 1 ≤ log_n) :
    (transform_from_rev A values log_n roots scalar).vals
      = from_rev_idx A values log_n roots scalar := by
  simp only [transform_from_rev, from_rev_idx]
  have eL : log_n - 1 + 1 = log_n := by omega
  have h0 : (({ vals := values, root_index := 1, reads := [] } : DWTState V)).root_index
      = 2 ^ log_n - 2 ^ (log_n - 1 + 1) + 1 := by simp [eL]
  have h1 := gs_stages_vals A roots log_n (log_n - 1)
    { vals := values, root_index := 1, reads := [] } (by omega) h0
  have h2 : (gs_stages A roots log_n (log_n - 1)
      { vals := values, root_index := 1, reads := [] }).root_index
      = 2 ^ log_n - 1 := by
    have hb := (gs_stages_bookkeeping A roots log_n (log_n - 1)
      { vals := values, root_index := 1, reads := [] }).1
    have hp : (2 : Nat) ^ 1 ≤ 2 ^ (log_n - 1 + 1) :=
      Nat.pow_le_pow_right (by omega) (by omega)
    rw [pow_one] at hp
    rw [hb]
    show 1 + (2 ^ (log_n - 1 + 1) - 2) = 2 ^ log_n - 1
    rw [eL] at hp ⊢
    omega
  cases scalar with
  | none =>
      dsimp only
      rw [show gs_final A roots log_n = group_loop (gs_grp A log_n 0) roots
        (2 ^ log_n) false 0 1 from rfl, group_loop_final, h1, h2]
      simp [gs_final_idx]
  | some sc =>
      dsimp only
      rw [show gs_final_scalar A roots sc log_n = group_loop
        (gs_grp_scalar A sc log_n 0) roots (2 ^ log_n) false 0 1 from rfl,
        group_loop_final, h1, h2]
      simp [gs_final_scalar_idx]


/-- The root-table read log of `transform_to_rev` is exactly the indices
`1, …, n-1` in increasing order, for either scalar mode. -/
theorem to_rev_reads (A : Arithmetic V R S) (values : Nat → V) (log_n : Nat)
    (roots : Nat → R) (scalar : Option S) (hL : 1 ≤ log_n) :
    (transform_to_rev A values log_n roots scalar).reads
      = List.range' 1 (2 ^ log_n - 1) := by
  have eL : log_n - 1 + 1 = log_n := by omega
  have hp : 1 ≤ 2 ^ (log_n - 1) := Nat.one_le_two_pow
  have e2 : 2 ^ log_n = 2 * 2 ^ (log_n - 1) := by
    calc 2 ^ log_n = 2 ^ (log_n - 1 + 1) := by rw [eL]
      _ = 2 * 2 ^ (log_n - 1) := by rw [pow_succ]; ring
  simp only [transform_to_rev]
  have hb := ct_stages_bookkeeping A roots log_n (log_n - 1) 0
    { vals := values, root_index := 1, reads := [] }
  have hri : (ct_stages A roots log_n 0 (log_n - 1)
      { vals := values, root_index := 1, reads := [] }).root_index
      = 2 ^ (log_n - 1) := by
    rw [hb.1]
    show 1 + (2 ^ (0 + (log_n - 1)) - 2 ^ 0) = 2 ^ (log_n - 1)
    simp only [Nat.zero_add, pow_zero]
    omega
  have hrd : (ct_stages A roots log_n 0 (log_n - 1)
      { vals := values, root_index := 1, reads := [] }).reads
      = List.range' 1 (2 ^ (log_n - 1) - 1) := by
    rw [hb.2]
    show [] ++ List.range' 1 (2 ^ (0 + (log_n - 1)) - 2 ^ 0)
        = List.range' 1 (2 ^ (log_n - 1) - 1)
    simp only [Nat.zero_add, pow_zero, List.nil_append]
  have key : ∀ grp : R → Nat → (Nat → V) → Nat → V,
      (group_loop grp roots (2 ^ (log_n - (log_n - 1))) true 0 (2 ^ (log_n - 1))
        (ct_stages A roots log_n 0 (log_n - 1)
          { vals := values, root_index := 1, reads := [] })).reads
        = List.range' 1 (2 ^ log_n - 1) := by
    intro grp
    rw [group_loop_reads_incr, hrd, hri]
    have hg := range'_glue 1 (2 ^ (log_n - 1) - 1) (2 ^ (log_n - 1))
    rw [show 1 + (2 ^ (log_n - 1) - 1) = 2 ^ (log_n - 1) by omega] at hg
    rw [hg, show 2 ^ (log_n - 1) - 1 + 2 ^ (log_n - 1) = 2 ^ log_n - 1 by omega]
  cases scalar with
  | none => exact key (ct_grp A log_n (log_n - 1))
  | some sc => exact key (ct_grp_scalar A sc log_n (log_n - 1))

/-- The root-table read log of `transform_from_rev` is exactly the indices
`1, …, n-1` in increasing order, for either scalar mode. -/
theorem from_rev_reads (A : Arithmetic V R S) (values : Nat → V) (log_n : Nat)
    (roots : Nat → R) (scalar : Option S) (hL : 1 ≤ log_n) :
    (transform_from_rev A values log_n roots scalar).reads
      = List.range' 1 (2 ^ log_n - 1) := by
  have eL : log_n - 1 + 1 = log_n := by omega
  have hp : 1 ≤ 2 ^ (log_n - 1) := Nat.one_le_two_pow
  have e2 : 2 ^ log_n = 2 * 2 ^ (log_n - 1) := by
    calc 2 ^ log_n = 2 ^ (log_n - 1 + 1) := by rw [eL]
      _ = 2 * 2 ^ (log_n - 1) := by rw [pow_succ]; ring
  simp only [transform_from_rev]
  have hb := gs_stages_bookkeeping A roots log_n (log_n - 1)
    { vals := values, root_index := 1, reads := [] }
  have hri : (gs_stages A roots log_n (log_n - 1)
      { vals := values, root_index := 1, reads := [] }).root_index
      = 2 ^ log_n - 1 := by
    rw [hb.1]
    show 1 + (2 ^ (log_n - 1 + 1) - 2) = 2 ^ log_n - 1
    rw [eL]
    omega
  have hrd : (gs_stages A roots log_n (log_n - 1)
      { vals := values, root_index := 1, reads := [] }).reads
      = List.range' 1 (2 ^ log_n - 2) := by
    rw [hb.2]
    show [] ++ List.range' 1 (2 ^ (log_n - 1 + 1) - 2) = List.range' 1 (2 ^ log_n - 2)
    rw [eL, List.nil_append]
  have key : ∀ grp : R → Nat → (Nat → V) → Nat → V,
      (group_loop grp roots (2 ^ log_n) false 0 1
        (gs_stages A roots log_n (log_n - 1)
          { vals := values, root_index := 1, reads := [] })).reads
        = List.range' 1 (2 ^ log_n - 1) := by
    intro grp
    rw [group_loop_reads_once, hrd, hri]
    rw [show List.replicate 1 (2 ^ log_n - 1) = [2 ^ log_n - 1] from rfl]
    have hc := List.range'_1_concat 1 (2 ^ log_n - 2)
    rw [show (2 ^ log_n - 2) + 1 = 2 ^ log_n - 1 by omega] at hc
    rw [show (1 + (2 ^ log_n - 2) : Nat) = 2 ^ log_n - 1 by omega] at hc
    rw [← hc]
  cases scalar with
  | none => exact key (gs_grp A log_n 0)
  | some sc => exact key (gs_grp_scalar A sc log_n 0)

/-- Every index below `2^log_n` decomposes as group index and in-group
position for stage `log_m`. -/
theorem stage_decomp (log_n log_m : Nat) (hlm : log_m < log_n) (t : Nat)
    (ht : t < 2 ^ log_n) :
    ∃ q b, t = q * 2 ^ (log_n - log_m) + b ∧ q < 2 ^ log_m ∧
      b < 2 ^ (log_n - log_m) := by
  have hpos : 0 < 2 ^ (log_n - log_m) := Nat.pos_pow_of_pos _ (by omega)
  refine ⟨t / 2 ^ (log_n - log_m), t % 2 ^ (log_n - log_m), ?_, ?_, ?_⟩
  · rw [Nat.mul_comm]
    exact (Nat.div_add_mod t (2 ^ (log_n - log_m))).symm
  · rw [Nat.div_lt_iff_lt_mul hpos, stage_tile log_n log_m (le_of_lt hlm)] at *
    exact ht
  · exact Nat.mod_lt _ hpos

theorem ct_stage_idx_apply (A : Arithmetic V R S) (roots : Nat → R)
    (log_n log_m : Nat) (hlm : log_m < log_n) (f : Nat → V) (q b : Nat)
    (hq : q < 2 ^ log_m) (hb : b < 2 ^ (log_n - log_m)) :
    ct_stage_idx A roots log_n log_m f (q * 2 ^ (log_n - log_m) + b) =
      if b < 2 ^ (log_n - log_m - 1) then
        (ct_body A (roots (2 ^ log_m + q)) (f (q * 2 ^ (log_n - log_m) + b))
          (f (q * 2 ^ (log_n - log_m) + b + 2 ^ (log_n - log_m - 1)))).1
      else
        (ct_body A (roots (2 ^ log_m + q))
          (f (q * 2 ^ (log_n - log_m) + b - 2 ^ (log_n - log_m - 1)))
          (f (q * 2 ^ (log_n - log_m) + b))).2 := by
  simp only [ct_stage_idx, ct_grp_def]
  exact stage_fold_apply (ct_body A) _ log_n log_m hlm f q b hq hb

theorem ct_stage_scalar_idx_apply (A : Arithmetic V R S) (roots : Nat → R)
    (sc : S) (log_n log_m : Nat) (hlm : log_m < log_n) (f : Nat → V) (q b : Nat)
    (hq : q < 2 ^ log_m) (hb : b < 2 ^ (log_n - log_m)) :
    ct_stage_scalar_idx A roots sc log_n log_m f (q * 2 ^ (log_n - log_m) + b) =
      if b < 2 ^ (log_n - log_m - 1) then
        (ct_body_scalar A (A.mul_root_scalar (roots (2 ^ log_m + q)) sc) sc
          (f (q * 2 ^ (log_n - log_m) + b))
          (f (q * 2 ^ (log_n - log_m) + b + 2 ^ (log_n - log_m - 1)))).1
      else
        (ct_body_scalar A (A.mul_root_scalar (roots (2 ^ log_m + q)) sc) sc
          (f (q * 2 ^ (log_n - log_m) + b - 2 ^ (log_n - log_m - 1)))
          (f (q * 2 ^ (log_n - log_m) + b))).2 := by
  simp only [ct_stage_scalar_idx, ct_grp_scalar_def]
  exact stage_fold_apply
    (fun r => ct_body_scalar A (A.mul_root_scalar r sc) sc) _ log_n log_m hlm f q b hq hb

theorem gs_stage_idx_apply (A : Arithmetic V R S) (roots : Nat → R)
    (log_n log_m : Nat) (hlm : log_m < log_n) (f : Nat → V) (q b : Nat)
    (hq : q < 2 ^ log_m) (hb : b < 2 ^ (log_n - log_m)) :
    gs_stage_idx A roots log_n log_m f (q * 2 ^ (log_n - log_m) + b) =
      if b < 2 ^ (log_n - log_m - 1) then
        (gs_body A (roots (2 ^ log_n - 2 ^ (log_m + 1) + 1 + q))
          (f (q * 2 ^ (log_n - log_m) + b))
          (f (q * 2 ^ (log_n - log_m) + b + 2 ^ (log_n - log_m - 1)))).1
      else
        (gs_body A (roots (2 ^ log_n - 2 ^ (log_m + 1) + 1 + q))
          (f (q * 2 ^ (log_n - log_m) + b - 2 ^ (log_n - log_m - 1)))
          (f (q * 2 ^ (log_n - log_m) + b))).2 := by
  simp only [gs_stage_idx, gs_grp_def]
  exact stage_fold_apply (gs_body A) _ log_n log_m hlm f q b hq hb

theorem ct_stage_idx_frame (A : Arithmetic V R S) (roots : Nat → R)
    (log_n log_m : Nat) (hlm : log_m < log_n) (f : Nat → V) (t : Nat)
    (ht : 2 ^ log_n ≤ t) :
    ct_stage_idx A roots log_n log_m f t = f t := by
  simp only [ct_stage_idx, ct_grp_def]
  exact stage_fold_frame (ct_body A) _ log_n log_m hlm f t ht

theorem ct_stage_scalar_idx_frame (A : Arithmetic V R S) (roots : Nat → R)
    (sc : S) (log_n log_m : Nat) (hlm : log_m < log_n) (f : Nat → V) (t : Nat)
    (ht : 2 ^ log_n ≤ t) :
    ct_stage_scalar_idx A roots sc log_n log_m f t = f t := by
  simp only [ct_stage_scalar_idx, ct_grp_scalar_def]
  exact stage_fold_frame
    (fun r => ct_body_scalar A (A.mul_root_scalar r sc) sc) _ log_n log_m hlm f t ht

theorem gs_stage_idx_frame (A : Arithmetic V R S) (roots : Nat → R)
    (log_n log_m : Nat) (hlm : log_m < log_n) (f : Nat → V) (t : Nat)
    (ht : 2 ^ log_n ≤ t) :
    gs_stage_idx A roots log_n log_m f t = f t := by
  simp only [gs_stage_idx, gs_grp_def]
  exact stage_fold_frame (gs_body A) _ log_n log_m hlm f t ht


/-- A stage's output below `2^log_n` depends only on the buffer below
`2^log_n`. -/
theorem stage_fold_congr (mk : R → V → V → V × V) (rootAt : Nat → R)
    (log_n log_m : Nat) (hlm : log_m < log_n) (f g : Nat → V)
    (h : ∀ u, u < 2 ^ log_n → f u = g u) (t : Nat) (ht : t < 2 ^ log_n) :
    group_fold (fun r offset =>
        pairLoop (mk r) (2 ^ (log_n - log_m - 1)) offset
          (2 ^ (log_n - log_m - 1))) rootAt
      (2 ^ (log_n - log_m)) 0 (2 ^ log_m) f t =
    group_fold (fun r offset =>
        pairLoop (mk r) (2 ^ (log_n - log_m - 1)) offset
          (2 ^ (log_n - log_m - 1))) rootAt
      (2 ^ (log_n - log_m)) 0 (2 ^ log_m) g t := by
  obtain ⟨q, b, rfl, hq, hb⟩ := stage_decomp log_n log_m hlm t ht
  have hstep := stage_step_eq log_n log_m hlm
  have htile := stage_tile log_n log_m (le_of_lt hlm)
  have hmul : (q + 1) * 2 ^ (log_n - log_m) ≤ 2 ^ log_m * 2 ^ (log_n - log_m) :=
    Nat.mul_le_mul_right _ (by omega)
  have hqs : (q + 1) * 2 ^ (log_n - log_m)
      = q * 2 ^ (log_n - log_m) + 2 ^ (log_n - log_m) := by ring
  rw [stage_fold_apply mk rootAt log_n log_m hlm f q b hq hb,
    stage_fold_apply mk rootAt log_n log_m hlm g q b hq hb]
  by_cases hbg : b < 2 ^ (log_n - log_m - 1)
  · rw [if_pos hbg, if_pos hbg, h _ (by omega), h _ (by omega)]
  · rw [if_neg hbg, if_neg hbg, h _ (by omega), h _ (by omega)]

/-- A stage's output is the same for two root tables agreeing on the group
indices it reads. -/
theorem stage_fold_roots_congr (mk : R → V → V → V × V)
    (rootAt rootAt2 : Nat → R) (log_n log_m : Nat) (hlm : log_m < log_n)
    (h : ∀ i, i < 2 ^ log_m → rootAt i = rootAt2 i) (f : Nat → V) (t : Nat) :
    group_fold (fun r offset =>
        pairLoop (mk r) (2 ^ (log_n - log_m - 1)) offset
          (2 ^ (log_n - log_m - 1))) rootAt
      (2 ^ (log_n - log_m)) 0 (2 ^ log_m) f t =
    group_fold (fun r offset =>
        pairLoop (mk r) (2 ^ (log_n - log_m - 1)) offset
          (2 ^ (log_n - log_m - 1))) rootAt2
      (2 ^ (log_n - log_m)) 0 (2 ^ log_m) f t := by
  by_cases ht : t < 2 ^ log_n
  · obtain ⟨q, b, rfl, hq, hb⟩ := stage_decomp log_n log_m hlm t ht
    rw [stage_fold_apply mk rootAt log_n log_m hlm f q b hq hb,
      stage_fold_apply mk rootAt2 log_n log_m hlm f q b hq hb, h q hq]
  · rw [stage_fold_frame mk rootAt log_n log_m hlm f t (by omega),
      stage_fold_frame mk rootAt2 log_n log_m hlm f t (by omega)]

/-- A single butterfly block across `[0, 2·gap)` depends only on the buffer
below `2·gap`. -/
theorem pair_block_congr (body : V → V → V × V) (gap : Nat) (f g : Nat → V)
    (h : ∀ u, u < 2 * gap → f u = g u) (t : Nat) (ht : t < 2 * gap) :
    pairLoop body gap 0 gap f t = pairLoop body gap 0 gap g t := by
  rw [pairLoop_apply body gap gap 0 f t (le_refl gap),
    pairLoop_apply body gap gap 0 g t (le_refl gap)]
  by_cases h1 : 0 ≤ t ∧ t < 0 + gap
  · rw [if_pos h1, if_pos h1, h _ (by omega), h _ (by omega)]
  · rw [if_neg h1, if_neg h1]
    by_cases h2 : 0 + gap ≤ t ∧ t < 0 + gap + gap
    · rw [if_pos h2, if_pos h2, h _ (by omega), h _ (by omega)]
    · rw [if_neg h2, if_neg h2, h _ (by omega)]

/-- A single butterfly block across `[0, 2·gap)` leaves indices at or above
`2·gap` untouched. -/
theorem pair_block_frame (body : V → V → V × V) (gap : Nat) (f : Nat → V)
    (t : Nat) (ht : 2 * gap ≤ t) :
    pairLoop body gap 0 gap f t = f t := by
  rw [pairLoop_apply body gap gap 0 f t (le_refl gap),
    if_neg (by omega), if_neg (by omega)]

/-- For `1 ≤ log_n`, the non-scalar final stage of the cursor-free inverse
transform is exactly its stage `log_m = 0`. -/
theorem gs_final_idx_eq (A : Arithmetic V R S) (roots : Nat → R) (log_n : Nat)
    (hL : 1 ≤ log_n) (f : Nat → V) :
    gs_final_idx A roots log_n f = gs_stage_idx A roots log_n 0 f := by
  have h2 : (2 : Nat) ≤ 2 ^ log_n := by
    calc (2 : Nat) = 2 ^ 1 := rfl
      _ ≤ 2 ^ log_n := Nat.pow_le_pow_right (by omega) (by omega)
  simp only [gs_final_idx, gs_stage_idx, pow_zero]
  rw [show (group_fold (gs_grp A log_n 0)
      (fun i => roots (2 ^ log_n - 2 ^ (0 + 1) + 1 + i)) (2 ^ (log_n - 0)) 0 1 f)
    = gs_grp A log_n 0 (roots (2 ^ log_n - 2 ^ (0 + 1) + 1 + 0))
        (0 * 2 ^ (log_n - 0)) f from rfl]
  rw [Nat.zero_mul,
    show 2 ^ log_n - 2 ^ (0 + 1) + 1 + 0 = 2 ^ log_n - 1 by
      rw [show (2 : Nat) ^ (0 + 1) = 2 from rfl]; omega]


theorem ct_stage_idx_congr (A : Arithmetic V R S) (roots : Nat → R)
    (log_n log_m : Nat) (hlm : log_m < log_n) (f g : Nat → V)
    (h : ∀ u, u < 2 ^ log_n → f u = g u) (t : Nat) (ht : t < 2 ^ log_n) :
    ct_stage_idx A roots log_n log_m f t = ct_stage_idx A roots log_n log_m g t := by
  simp only [ct_stage_idx, ct_grp_def]
  exact stage_fold_congr (ct_body A) _ log_n log_m hlm f g h t ht

theorem ct_stage_scalar_idx_congr (A : Arithmetic V R S) (roots : Nat → R)
    (sc : S) (log_n log_m : Nat) (hlm : log_m < log_n) (f g : Nat → V)
    (h : ∀ u, u < 2 ^ log_n → f u = g u) (t : Nat) (ht : t < 2 ^ log_n) :
    ct_stage_scalar_idx A roots sc log_n log_m f t
      = ct_stage_scalar_idx A roots sc log_n log_m g t := by
  simp only [ct_stage_scalar_idx, ct_grp_scalar_def]
  exact stage_fold_congr (fun r => ct_body_scalar A (A.mul_root_scalar r sc) sc) _
    log_n log_m hlm f g h t ht

theorem gs_stage_idx_congr (A : Arithmetic V R S) (roots : Nat → R)
    (log_n log_m : Nat) (hlm : log_m < log_n) (f g : Nat → V)
    (h : ∀ u, u < 2 ^ log_n → f u = g u) (t : Nat) (ht : t < 2 ^ log_n) :
    gs_stage_idx A roots log_n log_m f t = gs_stage_idx A roots log_n log_m g t := by
  simp only [gs_stage_idx, gs_grp_def]
  exact stage_fold_congr (gs_body A) _ log_n log_m hlm f g h t ht

theorem ct_stage_idx_roots_congr (A : Arithmetic V R S) (roots roots2 : Nat → R)
    (log_n log_m : Nat) (hlm : log_m < log_n)
    (h : ∀ x, 1 ≤ x → x < 2 ^ log_n → roots x = roots2 x) (f : Nat → V) (t : Nat) :
    ct_stage_idx A roots log_n log_m f t = ct_stage_idx A roots2 log_n log_m f t := by
  have e0 : 1 ≤ 2 ^ log_m := Nat.one_le_two_pow
  have e1 : 2 ^ (log_m + 1) = 2 * 2 ^ log_m := by rw [pow_succ]; ring
  have e2 : 2 ^ (log_m + 1) ≤ 2 ^ log_n := Nat.pow_le_pow_right (by omega) (by omega)
  simp only [ct_stage_idx, ct_grp_def]
  exact stage_fold_roots_congr (ct_body A) _ _ log_n log_m hlm
    (fun i hi => h (2 ^ log_m + i) (by omega) (by omega)) f t

theorem ct_stage_scalar_idx_roots_congr (A : Arithmetic V R S)
    (roots roots2 : Nat → R) (sc : S) (log_n log_m : Nat) (hlm : log_m < log_n)
    (h : ∀ x, 1 ≤ x → x < 2 ^ log_n → roots x = roots2 x) (f : Nat → V) (t : Nat) :
    ct_stage_scalar_idx A roots sc log_n log_m f t
      = ct_stage_scalar_idx A roots2 sc log_n log_m f t := by
  have e0 : 1 ≤ 2 ^ log_m := Nat.one_le_two_pow
  have e1 : 2 ^ (log_m + 1) = 2 * 2 ^ log_m := by rw [pow_succ]; ring
  have e2 : 2 ^ (log_m + 1) ≤ 2 ^ log_n := Nat.pow_le_pow_right (by omega) (by omega)
  simp only [ct_stage_scalar_idx, ct_grp_scalar_def]
  exact stage_fold_roots_congr
    (fun r => ct_body_scalar A (A.mul_root_scalar r sc) sc) _ _ log_n log_m hlm
    (fun i hi => h (2 ^ log_m + i) (by omega) (by omega)) f t

theorem gs_stage_idx_roots_congr (A : Arithmetic V R S) (roots roots2 : Nat → R)
    (log_n log_m : Nat) (hlm : log_m < log_n)
    (h : ∀ x, 1 ≤ x → x < 2 ^ log_n → roots x = roots2 x) (f : Nat → V) (t : Nat) :
    gs_stage_idx A roots log_n log_m f t = gs_stage_idx A roots2 log_n log_m f t := by
  have e0 : 1 ≤ 2 ^ log_m := Nat.one_le_two_pow
  have e1 : 2 ^ (log_m + 1) = 2 * 2 ^ log_m := by rw [pow_succ]; ring
  have e2 : 2 ^ (log_m + 1) ≤ 2 ^ log_n := Nat.pow_le_pow_right (by omega) (by omega)
  simp only [gs_stage_idx, gs_grp_def]
  exact stage_fold_roots_congr (gs_body A) _ _ log_n log_m hlm
    (fun i hi => h (2 ^ log_n - 2 ^ (log_m + 1) + 1 + i) (by omega) (by omega)) f t

theorem ct_stages_idx_frame (A : Arithmetic V R S) (roots : Nat → R) (log_n : Nat) :
    ∀ (c log_m : Nat), log_m + c ≤ log_n → ∀ (f : Nat → V) (t : Nat),
      2 ^ log_n ≤ t → ct_stages_idx A roots log_n log_m c f t = f t := by
  intro c
  induction c with
  | zero => intro lm _ f t _; simp [ct_stages_idx]
  | succ c ih =>
      intro lm hc f t ht
      show ct_stages_idx A roots log_n (lm + 1) c (ct_stage_idx A roots log_n lm f) t = f t
      rw [ih (lm + 1) (by omega) _ t ht,
        ct_stage_idx_frame A roots log_n lm (by omega) f t ht]

theorem ct_stages_idx_congr (A : Arithmetic V R S) (roots : Nat → R) (log_n : Nat) :
    ∀ (c log_m : Nat), log_m + c ≤ log_n → ∀ (f g : Nat → V),
      (∀ u, u < 2 ^ log_n → f u = g u) → ∀ t, t < 2 ^ log_n →
      ct_stages_idx A roots log_n log_m c f t = ct_stages_idx A roots log_n log_m c g t := by
  intro c
  induction c with
  | zero => intro lm _ f g h t ht; exact h t ht
  | succ c ih =>
      intro lm hc f g h t ht
      show ct_stages_idx A roots log_n (lm + 1) c (ct_stage_idx A roots log_n lm f) t
        = ct_stages_idx A roots log_n (lm + 1) c (ct_stage_idx A roots log_n lm g) t
      exact ih (lm + 1) (by omega) _ _
        (fun u hu => ct_stage_idx_congr A roots log_n lm (by omega) f g h u hu) t ht

theorem ct_stages_idx_roots_congr (A : Arithmetic V R S) (roots roots2 : Nat → R)
    (log_n : Nat) :
    ∀ (c log_m : Nat), log_m + c ≤ log_n →
      (∀ x, 1 ≤ x → x < 2 ^ log_n → roots x = roots2 x) → ∀ (f : Nat → V) (t : Nat),
      ct_stages_idx A roots log_n log_m c f t = ct_stages_idx A roots2 log_n log_m c f t := by
  intro c
  induction c with
  | zero => intro lm _ _ f t; rfl
  | succ c ih =>
      intro lm hc h f t
      show ct_stages_idx A roots log_n (lm + 1) c (ct_stage_idx A roots log_n lm f) t
        = ct_stages_idx A roots2 log_n (lm + 1) c (ct_stage_idx A roots2 log_n lm f) t
      rw [show ct_stage_idx A roots log_n lm f = ct_stage_idx A roots2 log_n lm f from
        funext fun u => ct_stage_idx_roots_congr A roots roots2 log_n lm (by omega) h f u]
      exact ih (lm + 1) (by omega) h _ t

theorem gs_block_frame (A : Arithmetic V R S) (roots : Nat → R) (log_n : Nat) :
    ∀ (c log_m : Nat), log_m + c ≤ log_n → ∀ (f : Nat → V) (t : Nat),
      2 ^ log_n ≤ t → gs_block A roots log_n log_m c f t = f t := by
  intro c
  induction c with
  | zero => intro lm _ f t _; simp [gs_block]
  | succ c ih =>
      intro lm hc f t ht
      show gs_stage_idx A roots log_n lm (gs_block A roots log_n (lm + 1) c f) t = f t
      rw [gs_stage_idx_frame A roots log_n lm (by omega) _ t ht,
        ih (lm + 1) (by omega) f t ht]

theorem gs_block_congr (A : Arithmetic V R S) (roots : Nat → R) (log_n : Nat) :
    ∀ (c log_m : Nat), log_m + c ≤ log_n → ∀ (f g : Nat → V),
      (∀ u, u < 2 ^ log_n → f u = g u) → ∀ t, t < 2 ^ log_n →
      gs_block A roots log_n log_m c f t = gs_block A roots log_n log_m c g t := by
  intro c
  induction c with
  | zero => intro lm _ f g h t ht; exact h t ht
  | succ c ih =>
      intro lm hc f g h t ht
      show gs_stage_idx A roots log_n lm (gs_block A roots log_n (lm + 1) c f) t
        = gs_stage_idx A roots log_n lm (gs_block A roots log_n (lm + 1) c g) t
      exact gs_stage_idx_congr A roots log_n lm (by omega) _ _
        (fun u hu => ih (lm + 1) (by omega) f g h u hu) t ht

theorem gs_block_roots_congr (A : Arithmetic V R S) (roots roots2 : Nat → R)
    (log_n : Nat) :
    ∀ (c log_m : Nat), log_m + c ≤ log_n →
      (∀ x, 1 ≤ x → x < 2 ^ log_n → roots x = roots2 x) → ∀ (f : Nat → V) (t : Nat),
      gs_block A roots log_n log_m c f t = gs_block A roots2 log_n log_m c f t := by
  intro c
  induction c with
  | zero => intro lm _ _ f t; rfl
  | succ c ih =>
      intro lm hc h f t
      show gs_stage_idx A roots log_n lm (gs_block A roots log_n (lm + 1) c f) t
        = gs_stage_idx A roots2 log_n lm (gs_block A roots2 log_n (lm + 1) c f) t
      rw [show gs_block A roots log_n (lm + 1) c f
          = gs_block A roots2 log_n (lm + 1) c f from
        funext fun u => ih (lm + 1) (by omega) h f u]
      exact gs_stage_idx_roots_congr A roots roots2 log_n lm (by omega) h _ t

theorem gs_final_scalar_idx_frame (A : Arithmetic V R S) (roots : Nat → R)
    (sc : S) (log_n : Nat) (hL : 1 ≤ log_n) (f : Nat → V) (t : Nat)
    (ht : 2 ^ log_n ≤ t) :
    gs_final_scalar_idx A roots sc log_n f t = f t := by
  have e2 : 2 ^ log_n = 2 * 2 ^ (log_n - 1) := by
    calc 2 ^ log_n = 2 ^ (log_n - 1 + 1) := by rw [show log_n - 1 + 1 = log_n by omega]
      _ = 2 * 2 ^ (log_n - 1) := by rw [pow_succ]; ring
  simp only [gs_final_scalar_idx, gs_grp_scalar_def, Nat.sub_zero]
  exact pair_block_frame _ _ f t (by omega)

theorem gs_final_scalar_idx_congr (A : Arithmetic V R S) (roots : Nat → R)
    (sc : S) (log_n : Nat) (hL : 1 ≤ log_n) (f g : Nat → V)
    (h : ∀ u, u < 2 ^ log_n → f u = g u) (t : Nat) (ht : t < 2 ^ log_n) :
    gs_final_scalar_idx A roots sc log_n f t = gs_final_scalar_idx A roots sc log_n g t := by
  have e2 : 2 ^ log_n = 2 * 2 ^ (log_n - 1) := by
    calc 2 ^ log_n = 2 ^ (log_n - 1 + 1) := by rw [show log_n - 1 + 1 = log_n by omega]
      _ = 2 * 2 ^ (log_n - 1) := by rw [pow_succ]; ring
  simp only [gs_final_scalar_idx, gs_grp_scalar_def, Nat.sub_zero]
  exact pair_block_congr _ _ f g (fun u hu => h u (by omega)) t (by omega)

theorem gs_final_scalar_idx_roots_congr (A : Arithmetic V R S)
    (roots roots2 : Nat → R) (sc : S) (log_n : Nat) (hL : 1 ≤ log_n)
    (h : ∀ x, 1 ≤ x → x < 2 ^ log_n → roots x = roots2 x) (f : Nat → V) (t : Nat) :
    gs_final_scalar_idx A roots sc log_n f t = gs_final_scalar_idx A roots2 sc log_n f t := by
  have e2 : (2 : Nat) ≤ 2 ^ log_n := by
    calc (2 : Nat) = 2 ^ 1 := rfl
      _ ≤ 2 ^ log_n := Nat.pow_le_pow_right (by omega) (by omega)
  simp only [gs_final_scalar_idx]
  rw [h (2 ^ log_n - 1) (by omega) (by omega)]


/-- Frame property of `transform_to_rev`: indices at or above `2^log_n` are
never written. -/
theorem to_rev_frame (A : Arithmetic V R S) (values : Nat → V) (log_n : Nat)
    (roots : Nat → R) (scalar : Option S) (hL : 1 ≤ log_n) (t : Nat)
    (ht : 2 ^ log_n ≤ t) :
    (transform_to_rev A values log_n roots scalar).vals t = values t := by
  rw [to_rev_vals_idx]
  simp only [to_rev_idx]
  cases scalar with
  | none =>
      dsimp only
      rw [ct_stage_idx_frame A roots log_n (log_n - 1) (by omega) _ t ht,
        ct_stages_idx_frame A roots log_n (log_n - 1) 0 (by omega) values t ht]
  | some sc =>
      dsimp only
      rw [ct_stage_scalar_idx_frame A roots sc log_n (log_n - 1) (by omega) _ t ht,
        ct_stages_idx_frame A roots log_n (log_n - 1) 0 (by omega) values t ht]

/-- Frame property of `transform_from_rev`: indices at or above `2^log_n`
are never written. -/
theorem from_rev_frame (A : Arithmetic V R S) (values : Nat → V) (log_n : Nat)
    (roots : Nat → R) (scalar : Option S) (hL : 1 ≤ log_n) (t : Nat)
    (ht : 2 ^ log_n ≤ t) :
    (transform_from_rev A values log_n roots scalar).vals t = values t := by
  rw [from_rev_vals_idx A values log_n roots scalar hL]
  simp only [from_rev_idx]
  cases scalar with
  | none =>
      dsimp only
      rw [gs_final_idx_eq A roots log_n hL,
        gs_stage_idx_frame A roots log_n 0 (by omega) _ t ht,
        gs_block_frame A roots log_n (log_n - 1) 1 (by omega) values t ht]
  | some sc =>
      dsimp only
      rw [gs_final_scalar_idx_frame A roots sc log_n hL _ t ht,
        gs_block_frame A roots log_n (log_n - 1) 1 (by omega) values t ht]

/-- Below `2^log_n`, the output of `transform_to_rev` depends only on the
input buffer below `2^log_n`. -/
theorem to_rev_congr (A : Arithmetic V R S) (values values2 : Nat → V)
    (log_n : Nat) (roots : Nat → R) (scalar : Option S) (hL : 1 ≤ log_n)
    (h : ∀ u, u < 2 ^ log_n → values u = values2 u) (t : Nat) (ht : t < 2 ^ log_n) :
    (transform_to_rev A values log_n roots scalar).vals t
      = (transform_to_rev A values2 log_n roots scalar).vals t := by
  rw [to_rev_vals_idx, to_rev_vals_idx]
  simp only [to_rev_idx]
  cases scalar with
  | none =>
      dsimp only
      exact ct_stage_idx_congr A roots log_n (log_n - 1) (by omega) _ _
        (fun u hu => ct_stages_idx_congr A roots log_n (log_n - 1) 0 (by omega)
          values values2 h u hu) t ht
  | some sc =>
      dsimp only
      exact ct_stage_scalar_idx_congr A roots sc log_n (log_n - 1) (by omega) _ _
        (fun u hu => ct_stages_idx_congr A roots log_n (log_n - 1) 0 (by omega)
          values values2 h u hu) t ht

/-- Below `2^log_n`, the output of `transform_from_rev` depends only on the
input buffer below `2^log_n`. -/
theorem from_rev_congr (A : Arithmetic V R S) (values values2 : Nat → V)
    (log_n : Nat) (roots : Nat → R) (scalar : Option S) (hL : 1 ≤ log_n)
    (h : ∀ u, u < 2 ^ log_n → values u = values2 u) (t : Nat) (ht : t < 2 ^ log_n) :
    (transform_from_rev A values log_n roots scalar).vals t
      = (transform_from_rev A values2 log_n roots scalar).vals t := by
  rw [from_rev_vals_idx A values log_n roots scalar hL,
    from_rev_vals_idx A values2 log_n roots scalar hL]
  simp only [from_rev_idx]
  cases scalar with
  | none =>
      dsimp only
      rw [gs_final_idx_eq A roots log_n hL, gs_final_idx_eq A roots log_n hL]
      exact gs_stage_idx_congr A roots log_n 0 (by omega) _ _
        (fun u hu => gs_block_congr A roots log_n (log_n - 1) 1 (by omega)
          values values2 h u hu) t ht
  | some sc =>
      dsimp only
      exact gs_final_scalar_idx_congr A roots sc log_n hL _ _
        (fun u hu => gs_block_congr A roots log_n (log_n - 1) 1 (by omega)
          values values2 h u hu) t ht

/-- The output of `transform_to_rev` depends on the root table only through
the entries `1, …, 2^log_n - 1`. -/
theorem to_rev_roots_congr (A : Arithmetic V R S) (values : Nat → V)
    (log_n : Nat) (roots roots2 : Nat → R) (scalar : Option S) (hL : 1 ≤ log_n)
    (h : ∀ x, 1 ≤ x → x < 2 ^ log_n → roots x = roots2 x) (t : Nat) :
    (transform_to_rev A values log_n roots scalar).vals t
      = (transform_to_rev A values log_n roots2 scalar).vals t := by
  rw [to_rev_vals_idx, to_rev_vals_idx]
  simp only [to_rev_idx]
  have hst : ct_stages_idx A roots log_n 0 (log_n - 1) values
      = ct_stages_idx A roots2 log_n 0 (log_n - 1) values :=
    funext fun u =>
      ct_stages_idx_roots_congr A roots roots2 log_n (log_n - 1) 0 (by omega) h values u
  cases scalar with
  | none =>
      dsimp only
      rw [hst]
      exact ct_stage_idx_roots_congr A roots roots2 log_n (log_n - 1) (by omega) h _ t
  | some sc =>
      dsimp only
      rw [hst]
      exact ct_stage_scalar_idx_roots_congr A roots roots2 sc log_n (log_n - 1)
        (by omega) h _ t

/-- The output of `transform_from_rev` depends on the root table only
through the entries `1, …, 2^log_n - 1`. -/
theorem from_rev_roots_congr (A : Arithmetic V R S) (values : Nat → V)
    (log_n : Nat) (roots roots2 : Nat → R) (scalar : Option S) (hL : 1 ≤ log_n)
    (h : ∀ x, 1 ≤ x → x < 2 ^ log_n → roots x = roots2 x) (t : Nat) :
    (transform_from_rev A values log_n roots scalar).vals t
      = (transform_from_rev A values log_n roots2 scalar).vals t := by
  rw [from_rev_vals_idx A values log_n roots scalar hL,
    from_rev_vals_idx A values log_n roots2 scalar hL]
  simp only [from_rev_idx]
  have hst : gs_block A roots log_n 1 (log_n - 1) values
      = gs_block A roots2 log_n 1 (log_n - 1) values :=
    funext fun u =>
      gs_block_roots_congr A roots roots2 log_n (log_n - 1) 1 (by omega) h values u
  cases scalar with
  | none =>
      dsimp only
      rw [gs_final_idx_eq A roots log_n hL, gs_final_idx_eq A roots2 log_n hL, hst]
      exact gs_stage_idx_roots_congr A roots roots2 log_n 0 (by omega) h _ t
  | some sc =>
      dsimp only
      rw [hst]
      exact gs_final_scalar_idx_roots_congr A roots roots2 sc log_n hL h _ t

/-- Scalar fusion in `transform_from_rev`: when `guard` is the identity on
ring values and `mul_root_scalar` fuses, the scalar call equals the
scalar-free call followed by an elementwise `mul_scalar`. -/
theorem from_rev_scalar_fuse (A : Arithmetic V R S) (values : Nat → V)
    (log_n : Nat) (roots : Nat → R) (sc : S) (hL : 1 ≤ log_n)
    (hguard : ∀ a, A.guard a = a)
    (hfusion : ∀ (a : V) (r : R) (s : S),
      A.mul_root a (A.mul_root_scalar r s) = A.mul_scalar (A.mul_root a r) s)
    (t : Nat) (ht : t < 2 ^ log_n) :
    (transform_from_rev A values log_n roots (some sc)).vals t
      = A.mul_scalar ((transform_from_rev A values log_n roots none).vals t) sc := by
  have e2 : 2 ^ log_n = 2 * 2 ^ (log_n - 1) := by
    calc 2 ^ log_n = 2 ^ (log_n - 1 + 1) := by rw [show log_n - 1 + 1 = log_n by omega]
      _ = 2 * 2 ^ (log_n - 1) := by rw [pow_succ]; ring
  simp only [transform_from_rev]
  rw [show gs_final_scalar A roots sc log_n = group_loop (gs_grp_scalar A sc log_n 0)
    roots (2 ^ log_n) false 0 1 from rfl, group_loop_final]
  rw [show gs_final A roots log_n = group_loop (gs_grp A log_n 0) roots
    (2 ^ log_n) false 0 1 from rfl, group_loop_final]
  rw [gs_grp_scalar_def, gs_grp_def]
  simp only [Nat.zero_mul, Nat.sub_zero]
  rw [pairLoop_apply _ _ _ _ _ _ (le_refl (2 ^ (log_n - 1))),
    pairLoop_apply _ _ _ _ _ _ (le_refl (2 ^ (log_n - 1)))]
  by_cases h1 : 0 ≤ t ∧ t < 0 + 2 ^ (log_n - 1)
  · rw [if_pos h1, if_pos h1]
    simp only [gs_body_scalar, gs_body, hguard]
  · rw [if_neg h1, if_neg h1]
    have h2 : 0 + 2 ^ (log_n - 1) ≤ t ∧ t < 0 + 2 ^ (log_n - 1) + 2 ^ (log_n - 1) := by
      omega
    rw [if_pos h2, if_pos h2]
    simp only [gs_body_scalar, gs_body, hguard]
    rw [hfusion]

/-- Scalar fusion in `transform_to_rev`: when `mul_root_scalar` fuses and
`mul_scalar` distributes over `add` and `sub`, the scalar call equals the
scalar-free call followed by an elementwise `mul_scalar`. -/
theorem to_rev_scalar_fuse (A : Arithmetic V R S) (values : Nat → V)
    (log_n : Nat) (roots : Nat → R) (sc : S) (hL : 1 ≤ log_n)
    (hfusion : ∀ (a : V) (r : R) (s : S),
      A.mul_root a (A.mul_root_scalar r s) = A.mul_scalar (A.mul_root a r) s)
    (hadd : ∀ (a b : V) (s : S),
      A.mul_scalar (A.add a b) s = A.add (A.mul_scalar a s) (A.mul_scalar b s))
    (hsub : ∀ (a b : V) (s : S),
      A.mul_scalar (A.sub a b) s = A.sub (A.mul_scalar a s) (A.mul_scalar b s))
    (t : Nat) (ht : t < 2 ^ log_n) :
    (transform_to_rev A values log_n roots (some sc)).vals t
      = A.mul_scalar ((transform_to_rev A values log_n roots none).vals t) sc := by
  rw [to_rev_vals_idx, to_rev_vals_idx]
  simp only [to_rev_idx]
  obtain ⟨q, b, rfl, hq, hb⟩ := stage_decomp log_n (log_n - 1) (by omega) t ht
  rw [ct_stage_scalar_idx_apply A roots sc log_n (log_n - 1) (by omega) _ q b hq hb,
    ct_stage_idx_apply A roots log_n (log_n - 1) (by omega) _ q b hq hb]
  by_cases hbg : b < 2 ^ (log_n - (log_n - 1) - 1)
  · rw [if_pos hbg, if_pos hbg]
    simp only [ct_body_scalar, ct_body]
    rw [hadd, hfusion]
  · rw [if_neg hbg, if_neg hbg]
    simp only [ct_body_scalar, ct_body]
    rw [hsub, hfusion]


theorem ring_arith_add (α : Type) [CommRing α] (a b : α) :
    (ring_arith α).add a b = a + b := rfl

theorem ring_arith_sub (α : Type) [CommRing α] (a b : α) :
    (ring_arith α).sub a b = a - b := rfl

theorem ring_arith_mul_root (α : Type) [CommRing α] (a r : α) :
    (ring_arith α).mul_root a r = a * r := rfl

theorem ring_arith_mul_scalar (α : Type) [CommRing α] (a s : α) :
    (ring_arith α).mul_scalar a s = a * s := rfl

theorem ring_arith_mul_root_scalar (α : Type) [CommRing α] (r s : α) :
    (ring_arith α).mul_root_scalar r s = r * s := rfl

theorem ring_arith_guard (α : Type) [CommRing α] (a : α) :
    (ring_arith α).guard a = a := rfl

/-- Over a commutative ring, an inverse stage whose roots are the ring
inverses of the corresponding forward stage's roots undoes that forward
stage up to a factor of 2. -/
theorem ring_stage_cancel (α : Type) [CommRing α] (T U : Nat → α)
    (log_n log_m : Nat) (hlm : log_m < log_n)
    (hroots : ∀ i, i < 2 ^ log_m →
      U (2 ^ log_n - 2 ^ (log_m + 1) + 1 + i) * T (2 ^ log_m + i) = 1)
    (f : Nat → α) (t : Nat) (ht : t < 2 ^ log_n) :
    gs_stage_idx (ring_arith α) U log_n log_m
        (ct_stage_idx (ring_arith α) T log_n log_m f) t
      = 2 * f t := by
  obtain ⟨q, b, rfl, hq, hb⟩ := stage_decomp log_n log_m hlm t ht
  have hstep := stage_step_eq log_n log_m hlm
  have h := hroots q hq
  rw [gs_stage_idx_apply (ring_arith α) U log_n log_m hlm _ q b hq hb]
  by_cases hbg : b < 2 ^ (log_n - log_m - 1)
  · rw [if_pos hbg]
    rw [show q * 2 ^ (log_n - log_m) + b + 2 ^ (log_n - log_m - 1)
        = q * 2 ^ (log_n - log_m) + (b + 2 ^ (log_n - log_m - 1)) by omega]
    rw [ct_stage_idx_apply (ring_arith α) T log_n log_m hlm f q b hq hb,
      ct_stage_idx_apply (ring_arith α) T log_n log_m hlm f q
        (b + 2 ^ (log_n - log_m - 1)) hq (by omega)]
    rw [if_pos hbg, if_neg (show ¬ (b + 2 ^ (log_n - log_m - 1)
        < 2 ^ (log_n - log_m - 1)) by omega)]
    rw [show q * 2 ^ (log_n - log_m) + (b + 2 ^ (log_n - log_m - 1))
          - 2 ^ (log_n - log_m - 1) = q * 2 ^ (log_n - log_m) + b by omega]
    rw [show q * 2 ^ (log_n - log_m) + (b + 2 ^ (log_n - log_m - 1))
          = q * 2 ^ (log_n - log_m) + b + 2 ^ (log_n - log_m - 1) by omega]
    simp only [gs_body, ct_body, ring_arith_add, ring_arith_sub,
      ring_arith_mul_root, ring_arith_guard]
    ring
  · rw [if_neg hbg]
    rw [show q * 2 ^ (log_n - log_m) + b - 2 ^ (log_n - log_m - 1)
        = q * 2 ^ (log_n - log_m) + (b - 2 ^ (log_n - log_m - 1)) by omega]
    rw [ct_stage_idx_apply (ring_arith α) T log_n log_m hlm f q
        (b - 2 ^ (log_n - log_m - 1)) hq (by omega),
      ct_stage_idx_apply (ring_arith α) T log_n log_m hlm f q b hq hb]
    rw [if_pos (show b - 2 ^ (log_n - log_m - 1) < 2 ^ (log_n - log_m - 1) by omega),
      if_neg hbg]
    rw [show q * 2 ^ (log_n - log_m) + (b - 2 ^ (log_n - log_m - 1))
          + 2 ^ (log_n - log_m - 1) = q * 2 ^ (log_n - log_m) + b by omega]
    rw [show q * 2 ^ (log_n - log_m) + b - 2 ^ (log_n - log_m - 1)
        = q * 2 ^ (log_n - log_m) + (b - 2 ^ (log_n - log_m - 1)) by omega]
    simp only [gs_body, ct_body, ring_arith_add, ring_arith_sub,
      ring_arith_mul_root, ring_arith_guard]
    linear_combination (2 * f (q * 2 ^ (log_n - log_m) + b)) * h

/-- Over a commutative ring, an inverse stage commutes with multiplying
the whole buffer by a constant. -/
theorem ring_stage_linear (α : Type) [CommRing α] (U : Nat → α)
    (log_n log_m : Nat) (hlm : log_m < log_n) (c : α) (f : Nat → α) (t : Nat) :
    gs_stage_idx (ring_arith α) U log_n log_m (fun u => c * f u) t
      = c * gs_stage_idx (ring_arith α) U log_n log_m f t := by
  by_cases ht : t < 2 ^ log_n
  · obtain ⟨q, b, rfl, hq, hb⟩ := stage_decomp log_n log_m hlm t ht
    rw [gs_stage_idx_apply (ring_arith α) U log_n log_m hlm _ q b hq hb,
      gs_stage_idx_apply (ring_arith α) U log_n log_m hlm f q b hq hb]
    by_cases hbg : b < 2 ^ (log_n - log_m - 1)
    · rw [if_pos hbg, if_pos hbg]
      simp only [gs_body, ring_arith_add, ring_arith_sub, ring_arith_mul_root,
        ring_arith_guard]
      ring
    · rw [if_neg hbg, if_neg hbg]
      simp only [gs_body, ring_arith_add, ring_arith_sub, ring_arith_mul_root,
        ring_arith_guard]
      ring
  · rw [gs_stage_idx_frame (ring_arith α) U log_n log_m hlm _ t (by omega),
      gs_stage_idx_frame (ring_arith α) U log_n log_m hlm f t (by omega)]

/-- The heart of the round trip: over a commutative ring, the block of
inverse stages `log_m, …, log_n - 1` undoes the block of forward stages
`log_m, …, log_n - 1` up to the factor `2^c`, provided each inverse stage's
roots are the ring inverses of the matching forward stage's roots. -/
theorem ring_round_trip_aux (α : Type) [CommRing α] (T U : Nat → α)
    (log_n : Nat) :
    ∀ (c log_m : Nat), log_m + c = log_n →
      (∀ lm2 i, log_m ≤ lm2 → lm2 < log_n → i < 2 ^ lm2 →
        U (2 ^ log_n - 2 ^ (lm2 + 1) + 1 + i) * T (2 ^ lm2 + i) = 1) →
      ∀ (f : Nat → α) (t : Nat), t < 2 ^ log_n →
      gs_block (ring_arith α) U log_n log_m c
          (ct_stages_idx (ring_arith α) T log_n log_m c f) t
        = 2 ^ c * f t := by
  intro c
  induction c with
  | zero =>
      intro lm hc h f t ht
      show f t = 2 ^ 0 * f t
      rw [pow_zero, one_mul]
  | succ c ih =>
      intro lm hc h f t ht
      show gs_stage_idx (ring_arith α) U log_n lm
          (gs_block (ring_arith α) U log_n (lm + 1) c
            (ct_stages_idx (ring_arith α) T log_n (lm + 1) c
              (ct_stage_idx (ring_arith α) T log_n lm f))) t
        = 2 ^ (c + 1) * f t
      have hinner : ∀ u, u < 2 ^ log_n →
          gs_block (ring_arith α) U log_n (lm + 1) c
            (ct_stages_idx (ring_arith α) T log_n (lm + 1) c
              (ct_stage_idx (ring_arith α) T log_n lm f)) u
          = (fun u2 => (2 : α) ^ c * ct_stage_idx (ring_arith α) T log_n lm f u2) u := by
        intro u hu
        exact ih (lm + 1) (by omega)
          (fun lm2 i h1 h2 h3 => h lm2 i (by omega) h2 h3) _ u hu
      rw [gs_stage_idx_congr (ring_arith α) U log_n lm (by omega) _ _ hinner t ht]
      rw [ring_stage_linear α U log_n lm (by omega) ((2 : α) ^ c)
        (ct_stage_idx (ring_arith α) T log_n lm f) t]
      rw [ring_stage_cancel α T U log_n lm (by omega)
        (fun i hi => h lm i (le_refl lm) (by omega) hi) f t ht]
      rw [pow_succ]
      ring

/-- Over a commutative ring, the inverse transform undoes the forward
transform up to the factor `n = 2^log_n`, for any table pair in which the
inverse entry read at stage `log_m`, group `i` is the ring inverse of the
forward entry read at stage `log_m`, group `i`. -/
theorem ring_round_trip_none (α : Type) [CommRing α] (T U : Nat → α)
    (log_n : Nat) (hL : 1 ≤ log_n)
    (hTU : ∀ lm i, lm < log_n → i < 2 ^ lm →
      U (2 ^ log_n - 2 ^ (lm + 1) + 1 + i) * T (2 ^ lm + i) = 1)
    (v : Nat → α) (t : Nat) (ht : t < 2 ^ log_n) :
    (transform_from_rev (ring_arith α)
        ((transform_to_rev (ring_arith α) v log_n T none).vals) log_n U none).vals t
      = 2 ^ log_n * v t := by
  have eL : log_n - 1 + 1 = log_n := by omega
  rw [from_rev_vals_idx _ _ _ _ _ hL, to_rev_vals_idx]
  have eto : to_rev_idx (ring_arith α) v log_n T none
      = ct_stages_idx (ring_arith α) T log_n 0 log_n v := by
    have e := ct_stages_idx_snoc (ring_arith α) T log_n (log_n - 1) 0 v
    rw [eL, Nat.zero_add] at e
    rw [e]
    rfl
  have efrom : ∀ f : Nat → α, from_rev_idx (ring_arith α) f log_n U none
      = gs_block (ring_arith α) U log_n 0 log_n f := by
    intro f
    have e : gs_block (ring_arith α) U log_n 0 (log_n - 1 + 1) f
        = gs_stage_idx (ring_arith α) U log_n 0
            (gs_block (ring_arith α) U log_n 1 (log_n - 1) f) := rfl
    rw [eL] at e
    rw [e]
    show gs_final_idx (ring_arith α) U log_n
        (gs_block (ring_arith α) U log_n 1 (log_n - 1) f)
      = gs_stage_idx (ring_arith α) U log_n 0
          (gs_block (ring_arith α) U log_n 1 (log_n - 1) f)
    rw [gs_final_idx_eq (ring_arith α) U log_n hL]
  rw [eto, efrom]
  exact ring_round_trip_aux α T U log_n log_n 0 (by omega)
    (fun lm2 i _ h2 h3 => hTU lm2 i h2 h3) v t ht


/-- Peeling the last stage off the cursor-threaded forward stage loop. -/
theorem ct_stages_snoc (A : Arithmetic V R S) (roots : Nat → R) (log_n : Nat) :
    ∀ (c log_m : Nat) (s : DWTState V),
      ct_stages A roots log_n log_m (c + 1) s
        = ct_stage A roots log_n (log_m + c) (ct_stages A roots log_n log_m c s) := by
  intro c
  induction c with
  | zero => intro lm s; simp [ct_stages]
  | succ c ih =>
      intro lm s
      have e : lm + 1 + c = lm + (c + 1) := by omega
      calc ct_stages A roots log_n lm (c + 1 + 1) s
          = ct_stages A roots log_n (lm + 1) (c + 1) (ct_stage A roots log_n lm s) := rfl
        _ = ct_stage A roots log_n (lm + 1 + c)
              (ct_stages A roots log_n (lm + 1) c (ct_stage A roots log_n lm s)) :=
            ih (lm + 1) _
        _ = ct_stage A roots log_n (lm + (c + 1))
              (ct_stages A roots log_n lm (c + 1) s) := by rw [e]; rfl

/-- C1: for every `log_n` with `n = 2^log_n` (in the well-defined regime
`log_n ≥ 1`), every value buffer, and correct forward and inverse root
tables for the same ring — formalized as: the inverse-table entry read at
stage `log_m`, group `i` is the ring inverse of the forward-table entry read
there — running `transform_to_rev` and then `transform_from_rev` with
`scalar = 1/n` restores the original buffer exactly, for the spec-modelled
ring arithmetic (`ring_arith`, covering the integer-modular variant at
`α = ZMod q`). -/
theorem c1_round_trip (α : Type) [CommRing α] (T U : Nat → α) (log_n : Nat)
    (hL : 1 ≤ log_n)
    (hTU : ∀ lm, lm < log_n → ∀ i, i < 2 ^ lm →
      U (2 ^ log_n - 2 ^ (lm + 1) + 1 + i) * T (2 ^ lm + i) = 1)
    (s : α) (hs : 2 ^ log_n * s = 1) (v : Nat → α) (t : Nat) (ht : t < 2 ^ log_n) :
    (transform_from_rev (ring_arith α)
        ((transform_to_rev (ring_arith α) v log_n T none).vals) log_n U
        (some s)).vals t
      = v t := by
  rw [from_rev_scalar_fuse (ring_arith α) _ log_n U s hL
    (fun a => rfl)
    (fun a r s2 => by
      simp only [ring_arith_mul_root, ring_arith_mul_root_scalar,
        ring_arith_mul_scalar]
      ring) t ht]
  rw [ring_round_trip_none α T U log_n hL (fun lm i h1 h2 => hTU lm h1 i h2) v t ht]
  simp only [ring_arith_mul_scalar]
  linear_combination v t * hs

theorem c1_round_trip_witness :
    ((1 : Nat) ≤ 2 ∧
      (∀ lm, lm < 2 → ∀ i, i < 2 ^ lm →
        (fun x => if x = 1 then (2 : ZMod 5) else 3) (2 ^ 2 - 2 ^ (lm + 1) + 1 + i)
          * (fun x => if x = 2 then (3 : ZMod 5) else 2) (2 ^ lm + i) = 1) ∧
      (2 ^ 2 * (4 : ZMod 5) = 1) ∧ (1 : Nat) < 2 ^ 2) ∧
    (transform_from_rev (ring_arith (ZMod 5))
        ((transform_to_rev (ring_arith (ZMod 5)) (fun u => (u : ZMod 5) + 1) 2
          (fun x => if x = 2 then (3 : ZMod 5) else 2) none).vals) 2
        (fun x => if x = 1 then (2 : ZMod 5) else 3) (some 4)).vals 1
      = (fun u => (u : ZMod 5) + 1) 1 :=
  ⟨⟨by decide, by decide, by decide, by decide⟩,
    c1_round_trip (ZMod 5) (fun x => if x = 2 then (3 : ZMod 5) else 2)
      (fun x => if x = 1 then (2 : ZMod 5) else 3) 2 (by decide) (by decide) 4
      (by decide) (fun u => (u : ZMod 5) + 1) 1 (by decide)⟩

/-- C2: for every `log_n ≥ 1` and every call (with or without a scalar),
each transform reads the root table at exactly the indices `1, …, n-1`
(`n = 2^log_n`), each exactly once, in an order determined solely by
`log_n` (namely increasing), and never reads index 0. -/
theorem c2_table_consumption (A : Arithmetic V R S) (values : Nat → V)
    (log_n : Nat) (roots : Nat → R) (scalar : Option S) (hL : 1 ≤ log_n) :
    (transform_to_rev A values log_n roots scalar).reads
        = List.range' 1 (2 ^ log_n - 1) ∧
      (transform_from_rev A values log_n roots scalar).reads
        = List.range' 1 (2 ^ log_n - 1) :=
  ⟨to_rev_reads A values log_n roots scalar hL,
    from_rev_reads A values log_n roots scalar hL⟩

theorem c2_table_consumption_witness :
    ((1 : Nat) ≤ 2) ∧
    (transform_to_rev (ring_arith (ZMod 5)) (fun u => (u : ZMod 5)) 2
        (fun _ => 2) none).reads = List.range' 1 (2 ^ 2 - 1) :=
  ⟨by decide,
    (c2_table_consumption (ring_arith (ZMod 5)) (fun u => (u : ZMod 5)) 2
      (fun _ => 2) none (by decide)).1⟩

/-- C3: without a scalar, `transform_to_rev` computes exactly the uniform
algorithm of §4.2: stages `log_m = 0, …, log_n - 1`, each group reading its
root from the strictly incrementing cursor starting at index 1 and applying
the butterfly `u = guard(values[j])`, `v = mul_root(values[j+gap], r)`,
`values[j] = add(u,v)`, `values[j+gap] = sub(u,v)`, with `guard` applied
only to `u`. -/
theorem c3_forward_matches_spec (A : Arithmetic V R S) (values : Nat → V)
    (log_n : Nat) (roots : Nat → R) (hL : 1 ≤ log_n) :
    (transform_to_rev A values log_n roots none).vals
      = spec_to_rev A values log_n roots := by
  have eL : log_n - 1 + 1 = log_n := by omega
  simp only [transform_to_rev, spec_to_rev]
  have e := ct_stages_snoc A roots log_n (log_n - 1) 0
    { vals := values, root_index := 1, reads := [] }
  rw [eL, Nat.zero_add] at e
  rw [e]

theorem c3_forward_matches_spec_witness :
    ((1 : Nat) ≤ 2) ∧
    (transform_to_rev (ring_arith (ZMod 5)) (fun u => (u : ZMod 5)) 2
        (fun _ => 2) none).vals
      = spec_to_rev (ring_arith (ZMod 5)) (fun u => (u : ZMod 5)) 2 (fun _ => 2) :=
  ⟨by decide,
    c3_forward_matches_spec (ring_arith (ZMod 5)) (fun u => (u : ZMod 5)) 2
      (fun _ => 2) (by decide)⟩

/-- C4: without a scalar, `transform_from_rev` computes exactly the
algorithm of §4.3: stages `log_m = log_n - 1, …, 1` with the flipped
butterfly and the same sequential root cursor, then one final stage at
`log_m = 0` with `gap = n / 2` applying the same butterfly once across the
two halves of the buffer. -/
theorem c4_inverse_matches_spec (A : Arithmetic V R S) (values : Nat → V)
    (log_n : Nat) (roots : Nat → R) (hL : 1 ≤ log_n) :
    (transform_from_rev A values log_n roots none).vals
      = spec_from_rev A values log_n roots := by
  have e2 : 2 ^ log_n = 2 * 2 ^ (log_n - 1) := by
    calc 2 ^ log_n = 2 ^ (log_n - 1 + 1) := by rw [show log_n - 1 + 1 = log_n by omega]
      _ = 2 * 2 ^ (log_n - 1) := by rw [pow_succ]; ring
  simp only [transform_from_rev, spec_from_rev]
  rw [show gs_final A roots log_n = group_loop (gs_grp A log_n 0) roots
    (2 ^ log_n) false 0 1 from rfl, group_loop_final]
  rw [gs_grp_def]
  simp only [Nat.zero_mul, Nat.sub_zero]
  rw [show 2 ^ log_n / 2 = 2 ^ (log_n - 1) by omega]

theorem c4_inverse_matches_spec_witness :
    ((1 : Nat) ≤ 2) ∧
    (transform_from_rev (ring_arith (ZMod 5)) (fun u => (u : ZMod 5)) 2
        (fun _ => 2) none).vals
      = spec_from_rev (ring_arith (ZMod 5)) (fun u => (u : ZMod 5)) 2 (fun _ => 2) :=
  ⟨by decide,
    c4_inverse_matches_spec (ring_arith (ZMod 5)) (fun u => (u : ZMod 5)) 2
      (fun _ => 2) (by decide)⟩

/-- C5: for every buffer, `log_n ≥ 1`, root table and scalar `s`, and any
arithmetic whose `guard` is the identity on ring values and whose
`mul_root_scalar` satisfies the fusion law (both hold for the spec-modelled
concrete variants), `transform_from_rev` with `scalar = s` produces, at
every buffer index, exactly the value produced by `transform_from_rev` with
no scalar followed by an elementwise `mul_scalar` by `s`. -/
theorem c5_inverse_scalar_fusion (A : Arithmetic V R S) (values : Nat → V)
    (log_n : Nat) (roots : Nat → R) (sc : S) (hL : 1 ≤ log_n)
    (hguard : ∀ a, A.guard a = a)
    (hfusion : ∀ (a : V) (r : R) (s2 : S),
      A.mul_root a (A.mul_root_scalar r s2) = A.mul_scalar (A.mul_root a r) s2)
    (t : Nat) (ht : t < 2 ^ log_n) :
    (transform_from_rev A values log_n roots (some sc)).vals t
      = A.mul_scalar ((transform_from_rev A values log_n roots none).vals t) sc :=
  from_rev_scalar_fuse A values log_n roots sc hL hguard hfusion t ht

theorem c5_inverse_scalar_fusion_witness :
    ((1 : Nat) ≤ 2 ∧ (0 : Nat) < 2 ^ 2) ∧
    (transform_from_rev (ring_arith (ZMod 5)) (fun u => (u : ZMod 5)) 2
        (fun _ => 2) (some 3)).vals 0
      = (ring_arith (ZMod 5)).mul_scalar
          ((transform_from_rev (ring_arith (ZMod 5)) (fun u => (u : ZMod 5)) 2
            (fun _ => 2) none).vals 0) 3 :=
  ⟨⟨by decide, by decide⟩,
    c5_inverse_scalar_fusion (ring_arith (ZMod 5)) (fun u => (u : ZMod 5)) 2
      (fun _ => 2) 3 (by decide) (fun a => rfl) (by decide) 0 (by decide)⟩

/-- C6: assuming the fusion law for `mul_root_scalar`, distributivity of
`mul_scalar` over `add` and `sub`, and that `guard` is semantically the
identity, `transform_to_rev` with `scalar = s` yields, element for element
over the buffer, the same values as `transform_to_rev` with no scalar
followed by multiplying every output element by `s`; the scalar is combined
into the root once per group of the last stage via `mul_root_scalar` and
applied to `u` via `mul_scalar`, with no separate pass over the buffer. -/
theorem c6_forward_scalar_fusion (A : Arithmetic V R S) (values : Nat → V)
    (log_n : Nat) (roots : Nat → R) (sc : S) (hL : 1 ≤ log_n)
    (_hguard : ∀ a, A.guard a = a)
    (hfusion : ∀ (a : V) (r : R) (s2 : S),
      A.mul_root a (A.mul_root_scalar r s2) = A.mul_scalar (A.mul_root a r) s2)
    (hadd : ∀ (a b : V) (s2 : S),
      A.mul_scalar (A.add a b) s2 = A.add (A.mul_scalar a s2) (A.mul_scalar b s2))
    (hsub : ∀ (a b : V) (s2 : S),
      A.mul_scalar (A.sub a b) s2 = A.sub (A.mul_scalar a s2) (A.mul_scalar b s2))
    (t : Nat) (ht : t < 2 ^ log_n) :
    (transform_to_rev A values log_n roots (some sc)).vals t
      = A.mul_scalar ((transform_to_rev A values log_n roots none).vals t) sc :=
  to_rev_scalar_fuse A values log_n roots sc hL hfusion hadd hsub t ht

theorem c6_forward_scalar_fusion_witness :
    ((1 : Nat) ≤ 2 ∧ (0 : Nat) < 2 ^ 2) ∧
    (transform_to_rev (ring_arith (ZMod 5)) (fun u => (u : ZMod 5)) 2
        (fun _ => 2) (some 3)).vals 0
      = (ring_arith (ZMod 5)).mul_scalar
          ((transform_to_rev (ring_arith (ZMod 5)) (fun u => (u : ZMod 5)) 2
            (fun _ => 2) none).vals 0) 3 :=
  ⟨⟨by decide, by decide⟩,
    c6_forward_scalar_fusion (ring_arith (ZMod 5)) (fun u => (u : ZMod 5)) 2
      (fun _ => 2) 3 (by decide) (fun a => rfl) (by decide) (by decide) (by decide)
      0 (by decide)⟩

/-- C7: for `log_n = 1` and no scalar, `transform_to_rev` on the buffer
`[v0, v1]` with root table `[_, r1]` leaves the buffer holding exactly
`[add(v0, mul_root(v1, r1)), sub(v0, mul_root(v1, r1))]`, for any arithmetic
whose `guard` is the identity on ring values. -/
theorem c7_log_n_one_example (A : Arithmetic V R S) (v : Nat → V)
    (roots : Nat → R) (hguard : ∀ a, A.guard a = a) :
    (transform_to_rev A v 1 roots none).vals 0
        = A.add (v 0) (A.mul_root (v 1) (roots 1)) ∧
      (transform_to_rev A v 1 roots none).vals 1
        = A.sub (v 0) (A.mul_root (v 1) (roots 1)) := by
  rw [to_rev_vals_idx]
  have e : to_rev_idx A v 1 roots none = ct_stage_idx A roots 1 0 v := rfl
  rw [e]
  have h0 := ct_stage_idx_apply A roots 1 0 (by norm_num) v 0 0 (by norm_num)
    (by norm_num)
  have h1 := ct_stage_idx_apply A roots 1 0 (by norm_num) v 0 1 (by norm_num)
    (by norm_num)
  norm_num at h0 h1
  rw [h0, h1]
  simp only [ct_body]
  rw [hguard]
  exact ⟨rfl, rfl⟩

theorem c7_log_n_one_example_witness :
    (∀ a : ZMod 5, (ring_arith (ZMod 5)).guard a = a) ∧
    (transform_to_rev (ring_arith (ZMod 5)) (fun u => (u : ZMod 5) + 1) 1
        (fun _ => 2) none).vals 0
      = (ring_arith (ZMod 5)).add ((fun u => (u : ZMod 5) + 1) 0)
          ((ring_arith (ZMod 5)).mul_root ((fun u => (u : ZMod 5) + 1) 1)
            ((fun _ => (2 : ZMod 5)) 1)) :=
  ⟨fun _ => rfl,
    (c7_log_n_one_example (ring_arith (ZMod 5)) (fun u => (u : ZMod 5) + 1)
      (fun _ => 2) (fun _ => rfl)).1⟩

/-- C8: for every call with `log_n ≥ 1`, both transforms mutate the value
buffer only at indices in `[0, 2^log_n)`: every index at or above
`2^log_n` still holds its original value afterwards.  (In this functional
embedding the root table, the scalar and the engine's arithmetic strategy
are immutable inputs by construction.) -/
theorem c8_frame_effect (A : Arithmetic V R S) (values : Nat → V)
    (log_n : Nat) (roots : Nat → R) (scalar : Option S) (hL : 1 ≤ log_n)
    (t : Nat) (ht : 2 ^ log_n ≤ t) :
    (transform_to_rev A values log_n roots scalar).vals t = values t ∧
      (transform_from_rev A values log_n roots scalar).vals t = values t :=
  ⟨to_rev_frame A values log_n roots scalar hL t ht,
    from_rev_frame A values log_n roots scalar hL t ht⟩

theorem c8_frame_effect_witness :
    ((1 : Nat) ≤ 2 ∧ (2 : Nat) ^ 2 ≤ 7) ∧
    (transform_to_rev (ring_arith (ZMod 5)) (fun u => (u : ZMod 5)) 2
        (fun _ => 2) none).vals 7 = (fun u => (u : ZMod 5)) 7 :=
  ⟨⟨by decide, by decide⟩,
    (c8_frame_effect (ring_arith (ZMod 5)) (fun u => (u : ZMod 5)) 2
      (fun _ => 2) none (by decide) 7 (by decide)).1⟩

/-- C10: in `transform_to_rev` the sequential cursor satisfies
`root_index = 2^log_m + i` at the moment group `i` of stage `log_m` reads
its root — for every stage including the specialized last one, with or
without a scalar — so the transform computes exactly the directly-indexed
`to_rev_idx`, whose stage `log_m` applies `roots[2^log_m + i]` to group
`i`. -/
theorem c10_root_cursor_invariant (A : Arithmetic V R S) (values : Nat → V)
    (log_n : Nat) (roots : Nat → R) (scalar : Option S) :
    (transform_to_rev A values log_n roots scalar).vals
      = to_rev_idx A values log_n roots scalar :=
  to_rev_vals_idx A values log_n roots scalar


/-- At `log_n = 0` the main loop of `transform_from_rev` runs no stages and
the specialized final stage still executes, reading root index 1 (the
cursor's initial value) in either scalar mode. -/
theorem from_rev_log0_reads (A : Arithmetic V R S) (values : Nat → V)
    (roots : Nat → R) (scalar : Option S) :
    (transform_from_rev A values 0 roots scalar).reads = [1] := by
  cases scalar with
  | none =>
      show (group_loop (gs_grp A 0 0) roots (2 ^ 0) false 0 1
        { vals := values, root_index := 1, reads := [] }).reads = [1]
      rw [group_loop_reads_once]
      rfl
  | some sc =>
      show (group_loop (gs_grp_scalar A sc 0 0) roots (2 ^ 0) false 0 1
        { vals := values, root_index := 1, reads := [] }).reads = [1]
      rw [group_loop_reads_once]
      rfl

/-- C9 counterexample: in the final stage of `transform_to_rev` the only
`log_m` in scope is `log_n - 1`, so at `log_n = 0` the claimed shift amount
`log_n - log_m - 1` evaluates to `0 - (-1) - 1 = 0`, not `-1`; the shift by
the negative amount `-1` is the one computing the group count
`m = size_t(1) << log_m`, whose amount is `log_m = log_n - 1 = -1`. -/
theorem c9_gap_shift_counterexample :
    to_rev_final_gap_shift 0 = 0 ∧ ¬ to_rev_final_gap_shift 0 = -1 := by
  constructor
  · decide
  · decide

/-- C9 (amended): for every `log_n ≥ 1`, every root-table access of either
transform is at an index in `1 … 2^log_n - 1`, and every values access is
below `2^log_n` — formalized as: indices at or above `2^log_n` are never
written, outputs below `2^log_n` depend only on inputs below `2^log_n`, and
the output depends on the root table only through entries
`1 … 2^log_n - 1`.  For `log_n = 0` the specialized final stages still
execute: `transform_from_rev` reads root index 1, past the end of the
length-1 root table, and `transform_to_rev` computes its final-stage group
count `m = size_t(1) << log_m` with a shift by the negative amount
`log_m = log_n - 1 = -1` (while the gap-shift amount `log_n - log_m - 1`
evaluates to 0 there, and `transform_from_rev`'s gap shift is by
`log_n - 1 = -1`), so neither transform is a well-defined no-op on a
one-element buffer. -/
theorem c9_access_bounds :
    (∀ (V2 R2 S2 : Type) (A : Arithmetic V2 R2 S2) (values : Nat → V2)
        (log_n : Nat) (roots : Nat → R2) (scalar : Option S2), 1 ≤ log_n →
      (∀ x ∈ (transform_to_rev A values log_n roots scalar).reads,
        1 ≤ x ∧ x ≤ 2 ^ log_n - 1) ∧
      (∀ x ∈ (transform_from_rev A values log_n roots scalar).reads,
        1 ≤ x ∧ x ≤ 2 ^ log_n - 1) ∧
      (∀ t, 2 ^ log_n ≤ t →
        (transform_to_rev A values log_n roots scalar).vals t = values t ∧
        (transform_from_rev A values log_n roots scalar).vals t = values t) ∧
      (∀ values2 : Nat → V2, (∀ u, u < 2 ^ log_n → values u = values2 u) →
        ∀ t, t < 2 ^ log_n →
          (transform_to_rev A values log_n roots scalar).vals t
            = (transform_to_rev A values2 log_n roots scalar).vals t ∧
          (transform_from_rev A values log_n roots scalar).vals t
            = (transform_from_rev A values2 log_n roots scalar).vals t) ∧
      (∀ roots2 : Nat → R2, (∀ x, 1 ≤ x → x < 2 ^ log_n → roots x = roots2 x) →
        ∀ t,
          (transform_to_rev A values log_n roots scalar).vals t
            = (transform_to_rev A values log_n roots2 scalar).vals t ∧
          (transform_from_rev A values log_n roots scalar).vals t
            = (transform_from_rev A values log_n roots2 scalar).vals t)) ∧
    (∀ (V2 R2 S2 : Type) (A : Arithmetic V2 R2 S2) (values : Nat → V2)
        (roots : Nat → R2) (scalar : Option S2),
      (transform_from_rev A values 0 roots scalar).reads = [1] ∧ 2 ^ 0 ≤ 1) ∧
    (to_rev_final_m_shift 0 = -1 ∧ to_rev_final_m_shift 0 < 0 ∧
      to_rev_final_gap_shift 0 = 0 ∧ from_rev_final_gap_shift 0 = -1) := by
  refine ⟨?_, ?_, by decide, by decide, by decide, by decide⟩
  · intro V2 R2 S2 A values log_n roots scalar hL
    have hp : 1 ≤ 2 ^ log_n := Nat.one_le_two_pow
    refine ⟨?_, ?_, ?_, ?_, ?_⟩
    · intro x hx
      rw [to_rev_reads A values log_n roots scalar hL] at hx
      have := List.mem_range'_1.mp hx
      omega
    · intro x hx
      rw [from_rev_reads A values log_n roots scalar hL] at hx
      have := List.mem_range'_1.mp hx
      omega
    · intro t ht
      exact ⟨to_rev_frame A values log_n roots scalar hL t ht,
        from_rev_frame A values log_n roots scalar hL t ht⟩
    · intro values2 h t ht
      exact ⟨to_rev_congr A values values2 log_n roots scalar hL h t ht,
        from_rev_congr A values values2 log_n roots scalar hL h t ht⟩
    · intro roots2 h t
      exact ⟨to_rev_roots_congr A values log_n roots roots2 scalar hL h t,
        from_rev_roots_congr A values log_n roots roots2 scalar hL h t⟩
  · intro V2 R2 S2 A values roots scalar
    exact ⟨from_rev_log0_reads A values roots scalar, by decide⟩

theorem c9_access_bounds_witness :
    ((1 : Nat) ≤ 1) ∧
    (∀ x ∈ (transform_to_rev (ring_arith (ZMod 5)) (fun u => (u : ZMod 5)) 1
        (fun _ => 2) none).reads, 1 ≤ x ∧ x ≤ 2 ^ 1 - 1) :=
  ⟨by decide,
    (c9_access_bounds.1 (ZMod 5) (ZMod 5) (ZMod 5) (ring_arith (ZMod 5))
      (fun u => (u : ZMod 5)) 1 (fun _ => 2) none (by decide)).1⟩

end SealFFT
